import Mathlib

/-!
Verification of the Savitzky-Golay smoothing library (`src/lib.rs`,
`src/math.rs`, `src/filter.rs`) against its specification.

The embedding models the numeric core in exact arithmetic: the `f64`
computations of the Rust code are idealized as rational arithmetic (`ℚ`)
for the direct-product weight engine of `lib.rs` and for the filter of
`filter.rs`, and as real arithmetic (`ℝ`, with `Real.log`/`Real.exp`
standing for the `statrs` log-factorial and `f64::exp`) for the log-space
weight engine of `math.rs`.  Integer arithmetic (`i64`, `usize`, `u64`)
is modelled by `ℤ`/`ℕ`; the `as u64` cast of a negative `i64` wraps
modulo `2^64`, which the model `u64cast` reproduces.
-/

set_option maxHeartbeats 1600000
set_option linter.unusedVariables false

namespace Savgol

/-- `lib.rs::generalized_factorial`: the product `(a)(a-1)...(a-b+1)` computed
by the loop `for i in 0..b { result *= (a - i) }` (empty product for `b ≤ 0`). -/
def generalized_factorial (a b : ℤ) : ℚ :=
  ∏ i ∈ Finset.range b.toNat, ((a - (i : ℤ) : ℤ) : ℚ)

/-- `math.rs::gram_poly` = `lib.rs::gram_poly`: the Gram polynomial (or its
`s`-th derivative) of order `k` evaluated at `i` over `2m+1` points, by the
three-term recurrence of Gorry (1990). -/
def gram_poly (i m k s : ℤ) : ℚ :=
  if k = 0 ∧ s = 0 then 1
  else if k ≤ 0 then 0
  else
    ((4 * k - 2 : ℤ) : ℚ) / ((k * (2 * m - k + 1) : ℤ) : ℚ)
      * (gram_poly i m (k - 1) s * (i : ℚ) + gram_poly i m (k - 1) (s - 1) * (s : ℚ))
    - ((k - 1) * (2 * m + k) : ℤ) / ((k * (2 * m - k + 1) : ℤ) : ℚ)
      * gram_poly i m (k - 2) s
termination_by k.toNat
decreasing_by
  all_goals simp_wf
  all_goals omega

/-- `lib.rs::weights`: the weight of the `i`-th data point for the `t`-th
least-squares point of the `s`-th derivative, over `2m+1` points, order `n`,
with the generalized-factorial ratio computed as a direct quotient. -/
def weights (i m n t s : ℤ) : ℚ :=
  ∑ k ∈ Finset.range (n + 1).toNat,
    ((2 * (k : ℤ) + 1 : ℤ) : ℚ)
      * (generalized_factorial (2 * m) (k : ℤ)
          / generalized_factorial (2 * m + (k : ℤ) + 1) ((k : ℤ) + 1))
      * gram_poly i m (k : ℤ) 0 * gram_poly t m (k : ℤ) s

/-- The `as u64` cast applied by `math.rs::ln_generalized_factorial` to its
`i64` operands: identity on non-negative values, two's-complement wrap-around
(modulo `2^64`) on negative values. -/
def u64cast (x : ℤ) : ℕ :=
  if 0 ≤ x then x.toNat else (x + 2 ^ 64).toNat

namespace MathRs

/-- `math.rs::ln_generalized_factorial`: `ln_factorial(a as u64) -
ln_factorial((a - b) as u64)`, with `statrs::function::factorial::ln_factorial`
idealized as the exact logarithm of the factorial. -/
noncomputable def ln_generalized_factorial (a b : ℤ) : ℝ :=
  Real.log (Nat.factorial (u64cast a)) - Real.log (Nat.factorial (u64cast (a - b)))

/-- `math.rs::weights`: the log-space weight engine, computing the
generalized-factorial ratio as `exp(ln_gf(2m,k) - ln_gf(2m+k+1,k+1))`. -/
noncomputable def weights (i m n t s : ℤ) : ℝ :=
  ∑ k ∈ Finset.range (n + 1).toNat,
    ((2 * (k : ℤ) + 1 : ℤ) : ℝ)
      * Real.exp (ln_generalized_factorial (2 * m) (k : ℤ)
          - ln_generalized_factorial (2 * m + (k : ℤ) + 1) ((k : ℤ) + 1))
      * ((gram_poly i m (k : ℤ) 0 : ℚ) : ℝ) * ((gram_poly t m (k : ℤ) s : ℚ) : ℝ)

end MathRs

/-! ### The smoothing filter of `filter.rs`

A `Filter` is the triple `(radius, degree, derivative)`; its methods are
modelled as functions taking the three fields as the first arguments. -/

/-- `filter.rs::Filter::smooth_point`: the dot product
`Σ_{i=-r..r} weight(i,t) * window[i+r]` (the window is indexed with `getD`;
the length assertion of the source is modelled separately by
`smooth_pointC`). -/
def smooth_point (radius degree derivative : ℕ) (t : ℤ) (window : List ℚ) : ℚ :=
  ∑ j ∈ Finset.range (2 * radius + 1),
    weights ((j : ℤ) - (radius : ℤ)) (radius : ℤ) (degree : ℤ) t (derivative : ℤ)
      * window.getD j 0

/-- `filter.rs::Filter::smooth_edge`: one smoothed point for each evaluation
offset `t` in `start_t..=end_t` (empty if `start_t > end_t`), all over the same
window. -/
def smooth_edge (radius degree derivative : ℕ) (start_t end_t : ℤ)
    (window : List ℚ) : List ℚ :=
  (List.range (end_t + 1 - start_t).toNat).map
    (fun (j : ℕ) => smooth_point radius degree derivative (start_t + (j : ℤ)) window)

/-- `filter.rs::Filter::smooth`: trivial return for `len ≤ 2`; radius
auto-reduction for `len < 2·radius+1`; otherwise left edge, interior and
right edge, concatenated. -/
def smooth (radius degree derivative : ℕ) (data : List ℚ) : List ℚ :=
  if data.length ≤ 2 then data
  else if data.length < 2 * radius + 1 then
    smooth ((data.length - 1) / 2) degree derivative data
  else
    smooth_edge radius degree derivative (-(radius : ℤ)) (-1)
      (data.take (2 * radius + 1))
    ++ (List.range (data.length - 2 * radius)).map
        (fun j => smooth_point radius degree derivative 0
          ((data.drop j).take (2 * radius + 1)))
    ++ smooth_edge radius degree derivative 1 (radius : ℤ)
        (data.drop (data.length - (2 * radius + 1)))
termination_by radius
decreasing_by
  simp_wf
  omega

/-! ### Spec-side definitions (for claims C1 and C2) -/

/-- Modelled from the spec: `GF(a,b)`, the generalized falling factorial
`a·(a-1)·…·(a-b+1)` (product of `b` consecutive terms descending from `a`,
`GF(a,0) = 1`). -/
def gfalling (a : ℤ) (b : ℕ) : ℚ :=
  ∏ i ∈ Finset.range b, ((a - (i : ℤ) : ℤ) : ℚ)

/-- Modelled from the spec (claim C1): the closed-form least-squares weight
`Σ_{k=0}^{n} (2k+1) · C(m,k) · G(i,m,k,0) · G(t,m,k,s)` with
`C(m,k) = GF(2m,k)/GF(2m+k+1,k+1)`.  The claim's recurrence for the Gram
polynomial `G` is verbatim the recurrence implemented by `gram_poly`, so
`gram_poly` is used for `G`; the ratio `C(m,k)`, which the source computes in
log-space, is modelled by the falling-factorial quotient. -/
def closed_form_weight (i m n t s : ℤ) : ℚ :=
  ∑ k ∈ Finset.range (n + 1).toNat,
    ((2 * (k : ℤ) + 1 : ℤ) : ℚ)
      * (gfalling (2 * m) k / gfalling (2 * m + (k : ℤ) + 1) (k + 1))
      * gram_poly i m (k : ℤ) 0 * gram_poly t m (k : ℤ) s

/-! ### Checked (division- and assertion-guarded) variants

`gram_polyC` evaluates the Gram recurrence but fails (returns `none`) if a
division by zero is reached — the exact arithmetic rendering of "produces a
NaN or infinity".  `smooth_pointC`/`smoothC` model the window-length
assertion of `filter.rs::smooth_point` as a fallible precondition instead of
a `getD` default. -/

def gram_polyC (i m k s : ℤ) : Option ℚ :=
  if k = 0 ∧ s = 0 then some 1
  else if k ≤ 0 then some 0
  else if (k * (2 * m - k + 1) : ℤ) = 0 then none
  else do
    let g1 ← gram_polyC i m (k - 1) s
    let g2 ← gram_polyC i m (k - 1) (s - 1)
    let g3 ← gram_polyC i m (k - 2) s
    some (((4 * k - 2 : ℤ) : ℚ) / ((k * (2 * m - k + 1) : ℤ) : ℚ)
        * (g1 * (i : ℚ) + g2 * (s : ℚ))
      - ((k - 1) * (2 * m + k) : ℤ) / ((k * (2 * m - k + 1) : ℤ) : ℚ) * g3)
termination_by k.toNat
decreasing_by
  all_goals simp_wf
  all_goals omega

/-- The log-space weight engine with every Gram-recurrence division guarded:
`some` of the weight when no division by zero occurs, `none` otherwise. -/
noncomputable def MathRs.weightsC (i m n t s : ℤ) : Option ℝ :=
  ((List.range (n + 1).toNat).mapM (fun (k : ℕ) =>
    (gram_polyC i m (k : ℤ) 0).bind (fun g1 =>
      (gram_polyC t m (k : ℤ) s).map (fun g2 =>
        ((2 * (k : ℤ) + 1 : ℤ) : ℝ)
          * Real.exp (MathRs.ln_generalized_factorial (2 * m) (k : ℤ)
              - MathRs.ln_generalized_factorial (2 * m + (k : ℤ) + 1) ((k : ℤ) + 1))
          * ((g1 : ℚ) : ℝ) * ((g2 : ℚ) : ℝ))))).map List.sum

/-- `filter.rs::Filter::smooth_point` with its length assertion modelled:
`none` exactly when `assert!(window.len() == 2 * self.radius + 1)` would
panic. -/
def smooth_pointC (radius degree derivative : ℕ) (t : ℤ) (window : List ℚ) : Option ℚ :=
  if window.length = 2 * radius + 1
  then some (smooth_point radius degree derivative t window)
  else none

def smooth_edgeC (radius degree derivative : ℕ) (start_t end_t : ℤ)
    (window : List ℚ) : Option (List ℚ) :=
  (List.range (end_t + 1 - start_t).toNat).mapM
    (fun (j : ℕ) => smooth_pointC radius degree derivative (start_t + (j : ℤ)) window)

/-- `filter.rs::Filter::smooth` with the assertion of `smooth_point`
modelled as a fallible precondition. -/
def smoothC (radius degree derivative : ℕ) (data : List ℚ) : Option (List ℚ) :=
  if data.length ≤ 2 then some data
  else if data.length < 2 * radius + 1 then
    smoothC ((data.length - 1) / 2) degree derivative data
  else do
    let left ← smooth_edgeC radius degree derivative (-(radius : ℤ)) (-1)
      (data.take (2 * radius + 1))
    let mid ← (List.range (data.length - 2 * radius)).mapM
      (fun j => smooth_pointC radius degree derivative 0
        ((data.drop j).take (2 * radius + 1)))
    let right ← smooth_edgeC radius degree derivative 1 (radius : ℤ)
      (data.drop (data.length - (2 * radius + 1)))
    some (left ++ mid ++ right)
termination_by radius
decreasing_by
  simp_wf
  omega

/-- `filter.rs::Filter::smooth_point` over the division-guarded log-space
weight engine `MathRs.weightsC` (the engine `filter.rs` actually calls):
`none` exactly when some weight computation reaches a division by zero — the
exact-arithmetic rendering of an inf/NaN-polluted `f64` output. -/
noncomputable def smooth_pointW (radius degree derivative : ℕ) (t : ℤ)
    (window : List ℚ) : Option ℝ :=
  ((List.range (2 * radius + 1)).mapM (fun (j : ℕ) =>
    (MathRs.weightsC ((j : ℤ) - (radius : ℤ)) (radius : ℤ) (degree : ℤ) t
        (derivative : ℤ)).map
      (fun wgt => wgt * ((window.getD j 0 : ℚ) : ℝ)))).map List.sum

/-- `filter.rs::Filter::smooth_edge` over the division-guarded engine. -/
noncomputable def smooth_edgeW (radius degree derivative : ℕ) (start_t end_t : ℤ)
    (window : List ℚ) : Option (List ℝ) :=
  (List.range (end_t + 1 - start_t).toNat).mapM
    (fun (j : ℕ) => smooth_pointW radius degree derivative (start_t + (j : ℤ)) window)

/-- `filter.rs::Filter::smooth` over the division-guarded weight engine:
`none` when any produced output point would be polluted by a division by
zero inside the Gram recurrence. -/
noncomputable def smoothW (radius degree derivative : ℕ) (data : List ℚ) :
    Option (List ℝ) :=
  if data.length ≤ 2 then some (data.map (fun x => ((x : ℚ) : ℝ)))
  else if data.length < 2 * radius + 1 then
    smoothW ((data.length - 1) / 2) degree derivative data
  else do
    let left ← smooth_edgeW radius degree derivative (-(radius : ℤ)) (-1)
      (data.take (2 * radius + 1))
    let mid ← (List.range (data.length - 2 * radius)).mapM
      (fun j => smooth_pointW radius degree derivative 0
        ((data.drop j).take (2 * radius + 1)))
    let right ← smooth_edgeW radius degree derivative 1 (radius : ℤ)
      (data.drop (data.length - (2 * radius + 1)))
    some (left ++ mid ++ right)
termination_by radius
decreasing_by
  simp_wf
  omega

/-! ### Spec-side definitions for claim C2 (dot products of windows with
weight vectors) -/

/-- The dot product of two sample/weight vectors (spec side). -/
def dot_product (v w : List ℚ) : ℚ :=
  (List.zipWith (fun x y => x * y) v w).sum

/-- The weight vector `{weight(i, m, n, t, s) : i = -m…m}` (spec side). -/
def weight_vector (m n : ℕ) (t : ℤ) (s : ℕ) : List ℚ :=
  (List.range (2 * m + 1)).map
    (fun (j : ℕ) => weights ((j : ℤ) - (m : ℤ)) (m : ℤ) (n : ℤ) t (s : ℤ))

/-- The output sequence described by the spec for the normal case: left edge
(offsets `t = -m…-1` over the first `2m+1` samples), interior (centers
`c = m … len-m-1`, offset `0`), right edge (offsets `t = 1…m` over the last
`2m+1` samples). -/
def spec_smooth (m n s : ℕ) (data : List ℚ) : List ℚ :=
  ((List.range m).map
    (fun (j : ℕ) => dot_product (data.take (2 * m + 1)) (weight_vector m n ((j : ℤ) - (m : ℤ)) s)))
  ++ ((List.range (data.length - 2 * m)).map
    (fun j => dot_product ((data.drop ((m + j) - m)).take (2 * m + 1)) (weight_vector m n 0 s)))
  ++ ((List.range m).map
    (fun (j : ℕ) => dot_product (data.drop (data.length - (2 * m + 1))) (weight_vector m n ((j : ℤ) + 1) s)))

/-! ### The discrete Sturm-Liouville structure of the Gram polynomials
(analysis layer for claims C5 and C7) -/

/-- The order-`k` Gram polynomial (derivative order 0) as a function of the
evaluation point. -/
def gg (m k : ℕ) (i : ℤ) : ℚ :=
  gram_poly i (m : ℤ) (k : ℤ) 0

/-- The Sturm-Liouville coefficient `a(i) = (m - i)(m + i + 1)`; it vanishes
at `i = m` and at `i = -m-1`, which makes the operators below self- resp.
anti-self-adjoint on `[-m, m]`. -/
def aw (m : ℕ) (i : ℤ) : ℚ :=
  ((m : ℚ) - (i : ℚ)) * ((m : ℚ) + (i : ℚ) + 1)

/-- The discrete Sturm-Liouville operator. -/
def Lop (m : ℕ) (f : ℤ → ℚ) (i : ℤ) : ℚ :=
  aw m i * f (i + 1) + aw m (i - 1) * f (i - 1) - (aw m i + aw m (i - 1)) * f i

/-- The skew difference operator appearing in the structure relation. -/
def Fop (m : ℕ) (f : ℤ → ℚ) (i : ℤ) : ℚ :=
  aw m i * f (i + 1) - aw m (i - 1) * f (i - 1)

/-- The inner product `Σ_{i=-m}^{m} f(i)·g(i)`. -/
def ip (m : ℕ) (f g : ℤ → ℚ) : ℚ :=
  ∑ i ∈ Finset.Icc (-(m : ℤ)) (m : ℤ), f i * g i

/-- Numerator `4k-2` of the first Gram-recurrence coefficient. -/
def ppc (K : ℕ) : ℚ := 4 * (K : ℚ) - 2

/-- Numerator `(k-1)(2m+k)` of the second Gram-recurrence coefficient. -/
def qqc (m K : ℕ) : ℚ := ((K : ℚ) - 1) * (2 * (m : ℚ) + (K : ℚ))

/-- The common denominator `k(2m-k+1)` of the Gram-recurrence coefficients. -/
def ddc (m K : ℕ) : ℚ := (K : ℚ) * (2 * (m : ℚ) - (K : ℚ) + 1)

/-- Pointwise multiplication by the evaluation point, as a linear map on
grid functions. -/
def mulX : (ℤ → ℚ) →ₗ[ℚ] (ℤ → ℚ) where
  toFun f := fun i => (i : ℚ) * f i
  map_add' f g := by
    funext i
    simp [mul_add]
  map_smul' a f := by
    funext i
    simp only [Pi.smul_apply, smul_eq_mul, RingHom.id_apply]
    ring

/-! ### Unfolding lemmas -/

theorem gram_poly_base (i m : ℤ) : gram_poly i m 0 0 = 1 := by
  rw [gram_poly]; simp

theorem gram_poly_nonpos {i m k s : ℤ} (hk : k ≤ 0) (h : ¬(k = 0 ∧ s = 0)) :
    gram_poly i m k s = 0 := by
  rw [gram_poly]; simp [h, hk]

theorem gram_poly_rec {k : ℤ} (i m s : ℤ) (hk : 1 ≤ k) :
    gram_poly i m k s =
      ((4 * k - 2 : ℤ) : ℚ) / ((k * (2 * m - k + 1) : ℤ) : ℚ)
        * (gram_poly i m (k - 1) s * (i : ℚ) + gram_poly i m (k - 1) (s - 1) * (s : ℚ))
      - ((k - 1) * (2 * m + k) : ℤ) / ((k * (2 * m - k + 1) : ℤ) : ℚ)
        * gram_poly i m (k - 2) s := by
  rw [gram_poly]
  have h1 : ¬(k = 0 ∧ s = 0) := by omega
  have h2 : ¬(k ≤ 0) := by omega
  simp [h1, h2]

theorem smooth_of_short {data : List ℚ} (r n s : ℕ) (h : data.length ≤ 2) :
    smooth r n s data = data := by
  rw [smooth]; simp [h]

theorem smooth_of_reduce {data : List ℚ} (r n s : ℕ)
    (h2 : 2 < data.length) (h : data.length < 2 * r + 1) :
    smooth r n s data = smooth ((data.length - 1) / 2) n s data := by
  rw [smooth]
  have h3 : ¬(data.length ≤ 2) := by omega
  simp [h3, h]

theorem smooth_of_normal {data : List ℚ} (r n s : ℕ)
    (h2 : 2 < data.length) (h : 2 * r + 1 ≤ data.length) :
    smooth r n s data =
      smooth_edge r n s (-(r : ℤ)) (-1) (data.take (2 * r + 1))
      ++ (List.range (data.length - 2 * r)).map
          (fun j => smooth_point r n s 0 ((data.drop j).take (2 * r + 1)))
      ++ smooth_edge r n s 1 (r : ℤ) (data.drop (data.length - (2 * r + 1))) := by
  rw [smooth]
  have h3 : ¬(data.length ≤ 2) := by omega
  have h4 : ¬(data.length < 2 * r + 1) := by omega
  simp [h3, h4]

/-! ### Claims C3, C4, C10: the short-data and radius-reduction branches -/

/-- Claim C3: for every filter configuration and every sequence `data` with
`len(data) ≤ 2` (including the empty and single-element sequences),
`smooth(data)` returns `data` unchanged exactly, element for element, with the
same length. -/
theorem claim_C3 (radius degree derivative : ℕ) (data : List ℚ)
    (h : data.length ≤ 2) :
    smooth radius degree derivative data = data :=
  smooth_of_short radius degree derivative h

theorem claim_C3_witness :
    ([(1 : ℚ), 2]).length ≤ 2 ∧ smooth 1 2 0 [(1 : ℚ), 2] = [(1 : ℚ), 2] :=
  ⟨by decide, claim_C3 1 2 0 [(1 : ℚ), 2] (by decide)⟩

/-- Claim C4: for every filter `(m, n, s)` and every sequence `data` with
`2 < len(data) < 2m+1`, `smooth(data)` equals the output of `smooth` applied
to `data` by a filter constructed with reduced radius `m' = (len(data)-1)/2`
and the unchanged degree `n` and derivative order `s`, even when `n > 2m'`. -/
theorem claim_C4 (m degree derivative : ℕ) (data : List ℚ)
    (h2 : 2 < data.length) (h : data.length < 2 * m + 1) :
    smooth m degree derivative data =
      smooth ((data.length - 1) / 2) degree derivative data :=
  smooth_of_reduce m degree derivative h2 h

theorem claim_C4_witness :
    2 < ([(1 : ℚ), -2, 3, -4, 5]).length ∧
    ([(1 : ℚ), -2, 3, -4, 5]).length < 2 * 20 + 1 ∧
    smooth 20 2 0 [(1 : ℚ), -2, 3, -4, 5] =
      smooth ((([(1 : ℚ), -2, 3, -4, 5]).length - 1) / 2) 2 0
        [(1 : ℚ), -2, 3, -4, 5] :=
  ⟨by decide, by decide,
    claim_C4 20 2 0 [(1 : ℚ), -2, 3, -4, 5] (by decide) (by decide)⟩

/-- Claim C10: for every filter configuration and every input sequence,
`smooth` terminates: whenever the window-too-large branch is taken
(`len(data) > 2` and `len(data) < 2·radius+1`), the reduced radius
`m' = (len(data)-1)/2` satisfies `m' ≥ 1` and `2·m'+1 ≤ len(data)`, so the
recursive delegation inside `smooth` executes at most once and the recursion
never descends a second time. -/
theorem claim_C10 (radius degree derivative : ℕ) (data : List ℚ)
    (h2 : 2 < data.length) (h : data.length < 2 * radius + 1) :
    1 ≤ (data.length - 1) / 2 ∧
    2 * ((data.length - 1) / 2) + 1 ≤ data.length ∧
    smooth radius degree derivative data =
      smooth ((data.length - 1) / 2) degree derivative data :=
  ⟨by omega, by omega, smooth_of_reduce radius degree derivative h2 h⟩

theorem claim_C10_witness :
    2 < ([(1 : ℚ), 2, 3, 4]).length ∧
    ([(1 : ℚ), 2, 3, 4]).length < 2 * 5 + 1 ∧
    (1 ≤ (([(1 : ℚ), 2, 3, 4]).length - 1) / 2 ∧
      2 * ((([(1 : ℚ), 2, 3, 4]).length - 1) / 2) + 1 ≤ ([(1 : ℚ), 2, 3, 4]).length ∧
      smooth 5 3 1 [(1 : ℚ), 2, 3, 4] =
        smooth ((([(1 : ℚ), 2, 3, 4]).length - 1) / 2) 3 1 [(1 : ℚ), 2, 3, 4]) :=
  ⟨by decide, by decide, claim_C10 5 3 1 [(1 : ℚ), 2, 3, 4] (by decide) (by decide)⟩

/-! ### Claim C2: structure of the normal path of `smooth`

The right-hand side of the claim is modelled from the spec's words: a
concatenation of three blocks of dot products of windows with weight
vectors. -/

theorem getD_map_range {N j : ℕ} (f : ℕ → ℚ) (h : j < N) :
    (((List.range N).map f).getD j 0) = f j := by
  simp [List.getD_eq_getElem?_getD, List.getElem?_map, List.getElem?_range, h]

theorem dot_product_eq_sum (v w : List ℚ) (h : v.length = w.length) :
    dot_product v w = ∑ j ∈ Finset.range v.length, v.getD j 0 * w.getD j 0 := by
  induction v generalizing w with
  | nil => simp [dot_product]
  | cons x xs ih =>
    cases w with
    | nil => simp at h
    | cons y ys =>
      have h' : xs.length = ys.length := by simpa using h
      simp only [dot_product, List.zipWith_cons_cons, List.sum_cons, List.length_cons]
      rw [Finset.sum_range_succ']
      simp only [List.getD_cons_succ, List.getD_cons_zero]
      have ih' := ih ys h'
      simp only [dot_product] at ih'
      rw [ih']
      ring

theorem smooth_point_eq_dot (r n s : ℕ) (t : ℤ) (w : List ℚ)
    (h : w.length = 2 * r + 1) :
    smooth_point r n s t w = dot_product w (weight_vector r n t s) := by
  rw [smooth_point, dot_product_eq_sum w (weight_vector r n t s) (by simp [weight_vector, h]), h]
  refine Finset.sum_congr rfl (fun j hj => ?_)
  rw [weight_vector, getD_map_range _ (Finset.mem_range.mp hj)]
  ring

/-- Claim C2: for every filter configuration `(m, n, s)` and every sequence
`data` with `len(data) ≥ 2m+1` and `len(data) > 2`, `smooth(data)` is the
concatenation of: for each `t` in `[-m, -1]` (in increasing order), the dot
product of the first `2m+1` samples with the weight vector
`{weight(i,m,n,t,s) : i = -m…m}`; then for each center index `c` from `m` to
`len(data)-m-1`, the dot product of `data[c-m..c+m]` with the centered
weights; then for each `t` in `[1, m]`, the dot product of the last `2m+1`
samples with `{weight(i,m,n,t,s) : i = -m…m}`. -/
theorem claim_C2 (m n s : ℕ) (data : List ℚ)
    (h1 : 2 * m + 1 ≤ data.length) (h2 : 2 < data.length) :
    smooth m n s data = spec_smooth m n s data := by
  rw [smooth_of_normal m n s h2 h1, spec_smooth]
  have htake : (data.take (2 * m + 1)).length = 2 * m + 1 := by
    simp [List.length_take]
    omega
  congr 1
  · congr 1
    · rw [smooth_edge]
      have hc : ((-1 : ℤ) + 1 - -(m : ℤ)).toNat = m := by simp
      rw [hc]
      refine List.map_congr_left (fun j hj => ?_)
      rw [smooth_point_eq_dot m n s _ _ htake]
      congr 2
      omega
    · refine List.map_congr_left (fun j hj => ?_)
      have hj' : j < data.length - 2 * m := List.mem_range.mp hj
      have hwin : ((data.drop j).take (2 * m + 1)).length = 2 * m + 1 := by
        rw [List.length_take, List.length_drop]
        omega
      simp only [Nat.add_sub_cancel_left]
      rw [smooth_point_eq_dot m n s _ _ hwin]
  · rw [smooth_edge]
    have hc : ((m : ℤ) + 1 - 1).toNat = m := by simp
    rw [hc]
    refine List.map_congr_left (fun j hj => ?_)
    have hdrop : (data.drop (data.length - (2 * m + 1))).length = 2 * m + 1 := by
      simp [List.length_drop]
      omega
    rw [smooth_point_eq_dot m n s _ _ hdrop]
    congr 2
    omega

/-! ### Generalized factorial lemmas -/

theorem gf_ofNat (a : ℤ) (b : ℕ) :
    generalized_factorial a (b : ℤ) = ∏ i ∈ Finset.range b, ((a - (i : ℤ) : ℤ) : ℚ) := by
  simp [generalized_factorial]

theorem gf_zero (a : ℤ) : generalized_factorial a 0 = 1 := by
  simp [generalized_factorial]

theorem gf_succ (a : ℤ) (b : ℕ) :
    generalized_factorial a ((b : ℤ) + 1)
      = generalized_factorial a (b : ℤ) * ((a - (b : ℤ) : ℤ) : ℚ) := by
  have : ((b : ℤ) + 1) = ((b + 1 : ℕ) : ℤ) := by push_cast; ring
  rw [this, gf_ofNat, gf_ofNat, Finset.prod_range_succ]

theorem gf_mul_factorial (a : ℤ) :
    ∀ b : ℕ, (b : ℤ) ≤ a →
      generalized_factorial a (b : ℤ) * ((a - b).toNat.factorial : ℚ)
        = (a.toNat.factorial : ℚ) := by
  intro b
  induction b with
  | zero => intro h; simp [gf_zero]
  | succ b ih =>
    intro h
    have hb : (b : ℤ) ≤ a := by push_cast at h ⊢; omega
    have h1 : ((b + 1 : ℕ) : ℤ) = (b : ℤ) + 1 := by push_cast; ring
    rw [h1, gf_succ]
    have h2 : (a - b).toNat = (a - (b + 1 : ℕ)).toNat + 1 := by
      push_cast at h ⊢; omega
    have h3 : ((a - (b : ℤ) : ℤ) : ℚ) = ((a - b).toNat : ℚ) := by
      have h4 : ((a - (b : ℤ)).toNat : ℤ) = a - (b : ℤ) := Int.toNat_of_nonneg (by omega)
      exact_mod_cast h4.symm
    calc generalized_factorial a (b : ℤ) * ((a - (b : ℤ) : ℤ) : ℚ)
        * ((a - (b + 1 : ℕ)).toNat.factorial : ℚ)
        = generalized_factorial a (b : ℤ)
          * (((a - b).toNat : ℚ) * ((a - (b + 1 : ℕ)).toNat.factorial : ℚ)) := by
          rw [h3]; ring
      _ = generalized_factorial a (b : ℤ) * ((a - b).toNat.factorial : ℚ) := by
          rw [h2, Nat.factorial_succ]
          push_cast
          ring
      _ = (a.toNat.factorial : ℚ) := ih hb

theorem gf_pos (a : ℤ) (b : ℕ) (h : (b : ℤ) ≤ a) :
    0 < generalized_factorial a (b : ℤ) := by
  rw [gf_ofNat]
  refine Finset.prod_pos (fun i hi => ?_)
  have hi' : i < b := Finset.mem_range.mp hi
  have : (0 : ℤ) < a - i := by omega
  exact_mod_cast this

theorem gf_eq_div (a : ℤ) (b : ℕ) (h : (b : ℤ) ≤ a) :
    generalized_factorial a (b : ℤ)
      = (a.toNat.factorial : ℚ) / ((a - b).toNat.factorial : ℚ) := by
  rw [eq_div_iff (by exact_mod_cast (a - b).toNat.factorial_pos.ne')]
  exact gf_mul_factorial a b h

theorem gf_zero_of_lt (a : ℤ) (b : ℕ) (h0 : 0 ≤ a) (h : a < b) :
    generalized_factorial a (b : ℤ) = 0 := by
  rw [gf_ofNat]
  refine Finset.prod_eq_zero (i := a.toNat) (Finset.mem_range.mpr (by omega)) ?_
  have : a - (a.toNat : ℤ) = 0 := by omega
  rw [this]
  simp

theorem u64cast_of_nonneg {x : ℤ} (h : 0 ≤ x) : u64cast x = x.toNat := if_pos h

/-- On the in-domain arguments, the log-space generalized-factorial ratio of
`math.rs` coincides with the direct-quotient ratio of `lib.rs`. -/
theorem exp_ln_gf_eq (m : ℤ) (hm : 0 ≤ m) (k : ℕ) (hk : (k : ℤ) ≤ 2 * m) :
    Real.exp (MathRs.ln_generalized_factorial (2 * m) (k : ℤ)
        - MathRs.ln_generalized_factorial (2 * m + (k : ℤ) + 1) ((k : ℤ) + 1))
      = ((generalized_factorial (2 * m) (k : ℤ)
          / generalized_factorial (2 * m + (k : ℤ) + 1) ((k : ℤ) + 1) : ℚ) : ℝ) := by
  have hA : (0 : ℝ) < ((2 * m).toNat.factorial : ℝ) := by exact_mod_cast (2 * m).toNat.factorial_pos
  have hB : (0 : ℝ) < ((2 * m - k).toNat.factorial : ℝ) := by
    exact_mod_cast (2 * m - k).toNat.factorial_pos
  have hC : (0 : ℝ) < ((2 * m + (k : ℤ) + 1).toNat.factorial : ℝ) := by
    exact_mod_cast (2 * m + (k : ℤ) + 1).toNat.factorial_pos
  have e1 : MathRs.ln_generalized_factorial (2 * m) (k : ℤ)
      = Real.log ((2 * m).toNat.factorial : ℝ) - Real.log ((2 * m - k).toNat.factorial : ℝ) := by
    rw [MathRs.ln_generalized_factorial, u64cast_of_nonneg (by omega),
      u64cast_of_nonneg (by omega)]
  have e2 : MathRs.ln_generalized_factorial (2 * m + (k : ℤ) + 1) ((k : ℤ) + 1)
      = Real.log ((2 * m + (k : ℤ) + 1).toNat.factorial : ℝ)
        - Real.log ((2 * m).toNat.factorial : ℝ) := by
    rw [MathRs.ln_generalized_factorial, u64cast_of_nonneg (by omega),
      u64cast_of_nonneg (by omega)]
    have : 2 * m + (k : ℤ) + 1 - ((k : ℤ) + 1) = 2 * m := by ring
    rw [this]
  rw [e1, e2, Real.exp_sub, Real.exp_sub, Real.exp_sub, Real.exp_log hA, Real.exp_log hB,
    Real.exp_log hC]
  have q1 : generalized_factorial (2 * m) (k : ℤ)
      = ((2 * m).toNat.factorial : ℚ) / (((2 * m - k).toNat.factorial : ℕ) : ℚ) :=
    gf_eq_div (2 * m) k hk
  have hk1 : ((k : ℤ) + 1) = ((k + 1 : ℕ) : ℤ) := by push_cast; ring
  have q2 : generalized_factorial (2 * m + (k : ℤ) + 1) ((k : ℤ) + 1)
      = ((2 * m + (k : ℤ) + 1).toNat.factorial : ℚ) / (((2 * m).toNat.factorial : ℕ) : ℚ) := by
    rw [hk1, gf_eq_div _ (k + 1) (by push_cast; omega)]
    have : 2 * m + (k : ℤ) + 1 - ((k + 1 : ℕ) : ℤ) = 2 * m := by push_cast; ring
    rw [this]
  rw [q1, q2]
  push_cast
  ring

theorem claim_C2_witness :
    2 * 1 + 1 ≤ ([(1 : ℚ), 2, 4]).length ∧ 2 < ([(1 : ℚ), 2, 4]).length ∧
    smooth 1 2 0 [(1 : ℚ), 2, 4] = spec_smooth 1 2 0 [(1 : ℚ), 2, 4] :=
  ⟨by decide, by decide, claim_C2 1 2 0 [(1 : ℚ), 2, 4] (by decide) (by decide)⟩

/-! ### Claim C6: the two weight engines agree on the whole domain -/

/-- Claim C6: for every in-domain argument tuple (`m ≥ 0`, `0 ≤ n ≤ 2m`,
`0 ≤ s ≤ n`, `i` and `t` in `[-m, m]`), the log-space weight engine of
`math.rs` and the direct-product weight engine of `lib.rs` return equal
values of `weights(i, m, n, t, s)`. -/
theorem claim_C6 (i m n t s : ℤ) (hm : 0 ≤ m) (hn0 : 0 ≤ n) (hn : n ≤ 2 * m)
    (hs0 : 0 ≤ s) (hsn : s ≤ n) (hi1 : -m ≤ i) (hi2 : i ≤ m)
    (ht1 : -m ≤ t) (ht2 : t ≤ m) :
    MathRs.weights i m n t s = ((weights i m n t s : ℚ) : ℝ) := by
  rw [MathRs.weights, weights, Rat.cast_sum]
  refine Finset.sum_congr rfl (fun k hk => ?_)
  have hk2 : (k : ℤ) ≤ 2 * m := by
    have := Finset.mem_range.mp hk
    omega
  rw [exp_ln_gf_eq m hm k hk2]
  push_cast
  ring

theorem claim_C6_witness :
    ((0 : ℤ) ≤ 2 ∧ (0 : ℤ) ≤ 2 ∧ (2 : ℤ) ≤ 2 * 2 ∧ (0 : ℤ) ≤ 1 ∧ (1 : ℤ) ≤ 2 ∧
      (-2 : ℤ) ≤ -1 ∧ (-1 : ℤ) ≤ 2 ∧ (-2 : ℤ) ≤ 0 ∧ (0 : ℤ) ≤ 2) ∧
    MathRs.weights (-1) 2 2 0 1 = ((weights (-1) 2 2 0 1 : ℚ) : ℝ) :=
  ⟨by decide,
    claim_C6 (-1) 2 2 0 1 (by decide) (by decide) (by decide) (by decide) (by decide)
      (by decide) (by decide) (by decide) (by decide)⟩

/-! ### Parity of the Gram polynomials and claim C7 -/

theorem gram_poly_neg_s_aux :
    ∀ (K : ℕ) (i m k s : ℤ), k.toNat ≤ K → s < 0 → gram_poly i m k s = 0 := by
  intro K
  induction K with
  | zero =>
    intro i m k s hK hs
    exact gram_poly_nonpos (by omega) (by omega)
  | succ K ih =>
    intro i m k s hK hs
    by_cases hk : k ≤ 0
    · exact gram_poly_nonpos hk (by omega)
    · rw [gram_poly_rec i m s (by omega)]
      rw [ih i m (k - 1) s (by omega) hs, ih i m (k - 1) (s - 1) (by omega) (by omega),
        ih i m (k - 2) s (by omega) hs]
      ring

theorem gram_poly_neg_s {i m k s : ℤ} (hs : s < 0) : gram_poly i m k s = 0 :=
  gram_poly_neg_s_aux k.toNat i m k s le_rfl hs

theorem gram_poly_parity_aux :
    ∀ (K : ℕ) (i m k : ℤ), k.toNat ≤ K →
      gram_poly (-i) m k 0 = (-1) ^ k.toNat * gram_poly i m k 0 := by
  intro K
  induction K with
  | zero =>
    intro i m k hK
    by_cases h0 : k = 0
    · subst h0; simp [gram_poly_base]
    · have hk : k ≤ 0 := by omega
      rw [gram_poly_nonpos hk (by simp [h0]), gram_poly_nonpos hk (by simp [h0])]
      simp
  | succ K ih =>
    intro i m k hK
    by_cases hk : k ≤ 0
    · by_cases h0 : k = 0
      · subst h0; simp [gram_poly_base]
      · rw [gram_poly_nonpos hk (by simp [h0]), gram_poly_nonpos hk (by simp [h0])]
        simp
    · have hk1 : 1 ≤ k := by omega
      rw [gram_poly_rec (-i) m 0 hk1, gram_poly_rec i m 0 hk1]
      simp only [Int.cast_zero, mul_zero, add_zero]
      by_cases hk2 : k = 1
      · subst hk2
        rw [gram_poly_nonpos (show (1 : ℤ) - 2 ≤ 0 by omega) (by omega)]
        have h0 : (1 : ℤ) - 1 = 0 := by omega
        rw [h0, gram_poly_base, gram_poly_base]
        norm_num
      · rw [ih i m (k - 1) (by omega), ih i m (k - 2) (by omega)]
        have e1 : (-1 : ℚ) ^ ((k - 1).toNat) = -(-1 : ℚ) ^ k.toNat := by
          have h : k.toNat = (k - 1).toNat + 1 := by omega
          rw [h, pow_succ]
          ring
        have e2 : (-1 : ℚ) ^ ((k - 2).toNat) = (-1 : ℚ) ^ k.toNat := by
          have h : k.toNat = (k - 2).toNat + 2 := by omega
          rw [h, pow_add]
          norm_num
        rw [e1, e2]
        push_cast
        ring

theorem gram_poly_parity (i m k : ℤ) :
    gram_poly (-i) m k 0 = (-1) ^ k.toNat * gram_poly i m k 0 :=
  gram_poly_parity_aux k.toNat i m k le_rfl

theorem gram_poly_odd_zero {m k : ℤ} (hk : Odd k.toNat) : gram_poly 0 m k 0 = 0 := by
  have h := gram_poly_parity 0 m k
  rw [neg_zero, Odd.neg_one_pow hk] at h
  linarith

/-- Claim C7: for every `m ≥ 0`, every `n` with `0 ≤ n ≤ 2m`, and every
integer `i` in `[-m, m]`, the centered smoothing weights are symmetric:
`weights(i, m, n, 0, 0) == weights(-i, m, n, 0, 0)`. -/
theorem claim_C7 (i m n : ℤ) (hm : 0 ≤ m) (hn0 : 0 ≤ n) (hn : n ≤ 2 * m)
    (hi1 : -m ≤ i) (hi2 : i ≤ m) :
    MathRs.weights i m n 0 0 = MathRs.weights (-i) m n 0 0 := by
  rw [MathRs.weights, MathRs.weights]
  refine Finset.sum_congr rfl (fun k hk => ?_)
  have key : gram_poly i m (k : ℤ) 0 * gram_poly 0 m (k : ℤ) 0
      = gram_poly (-i) m (k : ℤ) 0 * gram_poly 0 m (k : ℤ) 0 := by
    rcases Nat.even_or_odd ((k : ℤ)).toNat with he | ho
    · rw [gram_poly_parity i m (k : ℤ), Even.neg_one_pow he, one_mul]
    · rw [gram_poly_odd_zero ho]
      ring
  have keyR : ((gram_poly i m (k : ℤ) 0 : ℚ) : ℝ) * ((gram_poly 0 m (k : ℤ) 0 : ℚ) : ℝ)
      = ((gram_poly (-i) m (k : ℤ) 0 : ℚ) : ℝ) * ((gram_poly 0 m (k : ℤ) 0 : ℚ) : ℝ) := by
    exact_mod_cast key
  rw [mul_assoc, keyR, ← mul_assoc]

theorem claim_C7_witness :
    ((0 : ℤ) ≤ 2 ∧ (0 : ℤ) ≤ 2 ∧ (2 : ℤ) ≤ 2 * 2 ∧ (-2 : ℤ) ≤ 1 ∧ (1 : ℤ) ≤ 2) ∧
    MathRs.weights 1 2 2 0 0 = MathRs.weights (-1) 2 2 0 0 :=
  ⟨by decide,
    claim_C7 1 2 2 (by decide) (by decide) (by decide) (by decide) (by decide)⟩

/-! ### Claim C1: the closed-form weight formula -/

theorem gfalling_eq (a : ℤ) (b : ℕ) : gfalling a b = generalized_factorial a (b : ℤ) := by
  simp [gfalling, generalized_factorial]

theorem gfalling_succ_eq (a : ℤ) (b : ℕ) :
    gfalling a (b + 1) = generalized_factorial a ((b : ℤ) + 1) := by
  rw [gfalling_eq]
  norm_cast

/-- Claim C1 (amended: the equality holds on the recurrence's domain
`n ≤ 2m`): `math.rs::weights(i, m, n, t, s)` equals the closed-form
least-squares convolution weight
`Σ_{k=0}^{n} (2k+1)·C(m,k)·G(i,m,k,0)·G(t,m,k,s)` with
`C(m,k) = GF(2m,k)/GF(2m+k+1,k+1)`. -/
theorem claim_C1 (i m n t s : ℤ) (hm : 0 ≤ m) (hn0 : 0 ≤ n) (hs0 : 0 ≤ s)
    (hn : n ≤ 2 * m) :
    MathRs.weights i m n t s = ((closed_form_weight i m n t s : ℚ) : ℝ) := by
  rw [MathRs.weights, closed_form_weight, Rat.cast_sum]
  refine Finset.sum_congr rfl (fun k hk => ?_)
  have hk2 : (k : ℤ) ≤ 2 * m := by
    have := Finset.mem_range.mp hk
    omega
  rw [exp_ln_gf_eq m hm k hk2, gfalling_eq, gfalling_succ_eq]
  push_cast
  ring

theorem claim_C1_witness :
    ((0 : ℤ) ≤ 2 ∧ (0 : ℤ) ≤ 3 ∧ (0 : ℤ) ≤ 1 ∧ (3 : ℤ) ≤ 2 * 2) ∧
    MathRs.weights 1 2 3 (-2) 1 = ((closed_form_weight 1 2 3 (-2) 1 : ℚ) : ℝ) :=
  ⟨by decide, claim_C1 1 2 3 (-2) 1 (by decide) (by decide) (by decide) (by decide)⟩

/-- A `mapM` over `Option` fails as soon as one element fails. -/
theorem mapM_eq_none {α β : Type} (f : α → Option β) :
    ∀ (l : List α) (a : α), a ∈ l → f a = none → l.mapM f = none := by
  intro l
  induction l with
  | nil =>
    intro a ha _
    exact absurd ha (List.not_mem_nil a)
  | cons x xs ih =>
    intro a ha hfa
    rw [List.mapM_cons]
    rcases List.mem_cons.mp ha with h | h
    · rw [h] at hfa
      rw [hfa]
      rfl
    · simp only [ih a h hfa]
      cases f x <;> rfl

/-- Claim C1 fails as universally stated: for `n > 2m` the sum reaches Gram
orders `k` whose recurrence divisor `k·(2m-k+1)` vanishes (at
`i = 0, m = 0, n = 2, t = 0, s = 0` already `k = 1` gives `1·(0-1+1) = 0`),
so `math.rs::weights` divides by zero and its `f64` result is inf/NaN-
polluted — never the closed-form real value.  In the division-guarded model
of the engine the computation fails outright. -/
theorem claim_C1_counterexample : MathRs.weightsC 0 0 2 0 0 = none := by
  have h1 : gram_polyC 0 0 ((1 : ℕ) : ℤ) 0 = none := by
    rw [gram_polyC]
    norm_num
  rw [MathRs.weightsC, show ((2 : ℤ) + 1).toNat = 3 from rfl,
    mapM_eq_none _ (List.range 3) 1 (by decide) (by rw [h1]; rfl)]
  rfl

/-! ### Claims C8 and C9: absence of division-by-zero and of assertion
failures -/

theorem mapM_eq_some {α β : Type} (f : α → Option β) (g : α → β) :
    ∀ (l : List α), (∀ a ∈ l, f a = some (g a)) → l.mapM f = some (l.map g) := by
  intro l
  induction l with
  | nil => intro h; rfl
  | cons x xs ih =>
    intro h
    rw [List.map_cons, List.mapM_cons, h x (by simp),
      ih (fun a ha => h a (by simp [ha]))]
    rfl

theorem gram_polyC_eq_some_aux :
    ∀ (K : ℕ) (i m k s : ℤ), k.toNat ≤ K → k ≤ 2 * m →
      gram_polyC i m k s = some (gram_poly i m k s) := by
  intro K
  induction K with
  | zero =>
    intro i m k s hK hdom
    have hk : k ≤ 0 := by omega
    by_cases h0 : k = 0 ∧ s = 0
    · rw [gram_polyC, gram_poly]
      simp [h0]
    · rw [gram_polyC, gram_poly]
      simp [h0, hk]
  | succ K ih =>
    intro i m k s hK hdom
    by_cases hk : k ≤ 0
    · by_cases h0 : k = 0 ∧ s = 0
      · rw [gram_polyC, gram_poly]
        simp [h0]
      · rw [gram_polyC, gram_poly]
        simp [h0, hk]
    · have hk1 : 1 ≤ k := by omega
      have h0 : ¬(k = 0 ∧ s = 0) := by omega
      have hdiv : (k * (2 * m - k + 1) : ℤ) ≠ 0 :=
        mul_ne_zero (by omega) (by omega)
      rw [gram_polyC, gram_poly_rec i m s hk1]
      rw [if_neg h0, if_neg hk, if_neg hdiv]
      rw [ih i m (k - 1) s (by omega) (by omega),
        ih i m (k - 1) (s - 1) (by omega) (by omega),
        ih i m (k - 2) s (by omega) (by omega)]
      rfl

theorem gram_polyC_eq_some {i m k s : ℤ} (hdom : k ≤ 2 * m) :
    gram_polyC i m k s = some (gram_poly i m k s) :=
  gram_polyC_eq_some_aux k.toNat i m k s le_rfl hdom

theorem list_range_map_sum (f : ℕ → ℝ) :
    ∀ N : ℕ, ((List.range N).map f).sum = ∑ k ∈ Finset.range N, f k := by
  intro N
  induction N with
  | zero => simp
  | succ N ih => rw [List.range_succ, Finset.sum_range_succ, List.map_append, List.sum_append, ih]; simp

/-- Claim C8: under the preconditions `m ≥ 0`, `0 ≤ n ≤ 2m`, `0 ≤ s ≤ n`,
and `i, t ∈ [-m, m]`, every divisor `k·(2m-k+1)` reached in the `gram_poly`
recurrence (for `1 ≤ k ≤ n`) is nonzero, and `weights(i, m, n, t, s)`
returns a finite real value: the division-guarded evaluator returns `some`
of the unguarded value, i.e. no division by zero is reached anywhere and the
exact-arithmetic result is an ordinary (finite) real number — never a NaN or
infinity. -/
theorem claim_C8 (i m n t s : ℤ) (hm : 0 ≤ m) (hn0 : 0 ≤ n) (hn : n ≤ 2 * m)
    (hs0 : 0 ≤ s) (hsn : s ≤ n) (hi1 : -m ≤ i) (hi2 : i ≤ m)
    (ht1 : -m ≤ t) (ht2 : t ≤ m) :
    (∀ k : ℤ, 1 ≤ k → k ≤ n → (k * (2 * m - k + 1) : ℤ) ≠ 0) ∧
    MathRs.weightsC i m n t s = some (MathRs.weights i m n t s) := by
  constructor
  · intro k hk1 hk2
    exact mul_ne_zero (by omega) (by omega)
  · rw [MathRs.weightsC, MathRs.weights]
    rw [mapM_eq_some _ (fun k : ℕ =>
        ((2 * (k : ℤ) + 1 : ℤ) : ℝ)
          * Real.exp (MathRs.ln_generalized_factorial (2 * m) (k : ℤ)
              - MathRs.ln_generalized_factorial (2 * m + (k : ℤ) + 1) ((k : ℤ) + 1))
          * ((gram_poly i m (k : ℤ) 0 : ℚ) : ℝ) * ((gram_poly t m (k : ℤ) s : ℚ) : ℝ))]
    · rw [Option.map_some', list_range_map_sum]
    · intro k hk
      have hk2 : (k : ℤ) ≤ 2 * m := by
        have := List.mem_range.mp hk
        omega
      rw [gram_polyC_eq_some hk2, gram_polyC_eq_some hk2]
      rfl

theorem claim_C8_witness :
    ((0 : ℤ) ≤ 2 ∧ (0 : ℤ) ≤ 2 ∧ (2 : ℤ) ≤ 2 * 2 ∧ (0 : ℤ) ≤ 1 ∧ (1 : ℤ) ≤ 2 ∧
      (-2 : ℤ) ≤ 1 ∧ (1 : ℤ) ≤ 2 ∧ (-2 : ℤ) ≤ -2 ∧ (-2 : ℤ) ≤ 2) ∧
    ((∀ k : ℤ, 1 ≤ k → k ≤ 2 → (k * (2 * 2 - k + 1) : ℤ) ≠ 0) ∧
      MathRs.weightsC 1 2 2 (-2) 1 = some (MathRs.weights 1 2 2 (-2) 1)) :=
  ⟨by decide,
    claim_C8 1 2 2 (-2) 1 (by decide) (by decide) (by decide) (by decide) (by decide)
      (by decide) (by decide) (by decide) (by decide)⟩

theorem smooth_edgeC_eq_some (r n s : ℕ) (a b : ℤ) (w : List ℚ)
    (h : w.length = 2 * r + 1) :
    smooth_edgeC r n s a b w = some (smooth_edge r n s a b w) := by
  rw [smooth_edgeC, smooth_edge]
  exact mapM_eq_some _ _ _ (fun j hj => by rw [smooth_pointC, if_pos h])

theorem smoothC_eq_some :
    ∀ (r n s : ℕ) (data : List ℚ), smoothC r n s data = some (smooth r n s data) := by
  intro r
  induction r using Nat.strong_induction_on with
  | _ r ih =>
    intro n s data
    by_cases h1 : data.length ≤ 2
    · rw [smoothC, smooth]
      simp [h1]
    · by_cases h2 : data.length < 2 * r + 1
      · rw [smoothC, smooth_of_reduce r n s (by omega) h2]
        rw [if_neg h1, if_pos h2]
        exact ih ((data.length - 1) / 2) (by omega) n s data
      · rw [smoothC, smooth_of_normal r n s (by omega) (by omega)]
        rw [if_neg h1, if_neg h2]
        have htake : (data.take (2 * r + 1)).length = 2 * r + 1 := by
          rw [List.length_take]
          omega
        have hdrop : (data.drop (data.length - (2 * r + 1))).length = 2 * r + 1 := by
          rw [List.length_drop]
          omega
        rw [smooth_edgeC_eq_some r n s _ _ _ htake,
          smooth_edgeC_eq_some r n s _ _ _ hdrop,
          mapM_eq_some _ (fun j => smooth_point r n s 0 ((data.drop j).take (2 * r + 1)))
            _ (fun j hj => ?_)]
        · rfl
        · have hj' : j < data.length - 2 * r := List.mem_range.mp hj
          have hwin : ((data.drop j).take (2 * r + 1)).length = 2 * r + 1 := by
            rw [List.length_take, List.length_drop]
            omega
          rw [smooth_pointC, if_pos hwin]

/-- Claim C9: for every filter configuration and every caller-supplied
sequence `data`, `smooth(data)` only ever invokes `smooth_point` with a
window slice of length exactly `2·radius+1` (for the radius of the filter
making the call), so the length assertion in `smooth_point` never fails on
external input: the assertion-guarded evaluator always returns `some` of the
unguarded result — `smooth` never panics. -/
theorem claim_C9 (radius degree derivative : ℕ) (data : List ℚ) :
    smoothC radius degree derivative data
      = some (smooth radius degree derivative data) :=
  smoothC_eq_some radius degree derivative data

/-! ### Discrete Sturm-Liouville theory for the Gram polynomials

This section develops, entirely from the `gram_poly` recurrence, the facts
needed for the polynomial-exactness claim C5: the Gram polynomials
`gg m k = gram_poly · m k 0` are eigenfunctions of the discrete
Sturm-Liouville operator `Lop` on `[-m, m]`, hence orthogonal; their norms
satisfy a first-order recurrence obtained from the structure relation
`Fop`; and the weight kernel therefore reproduces polynomials. -/

theorem gg_zero_eq (m : ℕ) (i : ℤ) : gg m 0 i = 1 := by
  simp only [gg, Nat.cast_zero]
  exact gram_poly_base i m

theorem ddc_ne (m K : ℕ) (hK1 : 1 ≤ K) (hK2 : K ≤ 2 * m) : ddc m K ≠ 0 := by
  have h1 : (0 : ℚ) < (K : ℚ) := by exact_mod_cast hK1
  have h2 : (0 : ℚ) < 2 * (m : ℚ) - (K : ℚ) + 1 := by
    have : (K : ℚ) ≤ 2 * (m : ℚ) := by exact_mod_cast hK2
    linarith
  exact (mul_pos h1 h2).ne'

/-- Clearing a common denominator. -/
theorem div_clear (P Q D X Y : ℚ) (hD : D ≠ 0) :
    D * (P / D * X - Q / D * Y) = P * X - Q * Y := by
  field_simp

/-- The Gram recurrence with denominators cleared, valid on the domain
`1 ≤ k ≤ 2m`.  (For `k = 1` the `g_{k-2}` coefficient is zero, so the
truncated index is harmless.) -/
theorem gg_recc (m K : ℕ) (i : ℤ) (hK1 : 1 ≤ K) (hK2 : K ≤ 2 * m) :
    ddc m K * gg m K i
      = ppc K * ((i : ℚ) * gg m (K - 1) i) - qqc m K * gg m (K - 2) i := by
  have hdd := ddc_ne m K hK1 hK2
  have hrec := gram_poly_rec i (m : ℤ) 0 (show (1 : ℤ) ≤ (K : ℤ) by exact_mod_cast hK1)
  have hcastd : ((((K : ℤ)) * (2 * (m : ℤ) - (K : ℤ) + 1) : ℤ) : ℚ) = ddc m K := by
    simp only [ddc]
    push_cast
    ring
  have hcastp : (((4 * (K : ℤ) - 2 : ℤ)) : ℚ) = ppc K := by
    simp only [ppc]
    push_cast
    ring
  have hcastq : ((((K : ℤ) - 1) * (2 * (m : ℤ) + (K : ℤ)) : ℤ) : ℚ) = qqc m K := by
    simp only [qqc]
    push_cast
    ring
  have e1 : ((K : ℤ) - 1) = ((K - 1 : ℕ) : ℤ) := by omega
  rw [hcastd, hcastp, hcastq, e1] at hrec
  simp only [Int.cast_zero, mul_zero, add_zero] at hrec
  rcases eq_or_lt_of_le hK1 with h1 | h2
  · -- K = 1
    have hK : K = 1 := h1.symm
    subst hK
    rw [show ((1 : ℕ) : ℤ) - 2 = -1 by norm_num,
      gram_poly_nonpos (show (-1 : ℤ) ≤ 0 by norm_num) (by norm_num)] at hrec
    simp only [gg]
    rw [hrec, div_clear _ _ _ _ _ hdd]
    simp only [qqc]
    push_cast
    ring
  · -- K ≥ 2
    have e2 : ((K : ℤ) - 2) = ((K - 2 : ℕ) : ℤ) := by omega
    rw [e2] at hrec
    simp only [gg]
    rw [hrec, div_clear _ _ _ _ _ hdd]
    ring

/-- Inductive step for the eigenvalue equation `L g_K = -K(K+1) g_K`,
from the equations at orders `K-1`, `K-2` and the structure relation at
order `K-1`. -/
theorem eig_step (m K : ℕ) (hm : 1 ≤ m) (hK1 : 1 ≤ K) (hK2 : K ≤ 2 * m)
    (hE1 : ∀ i : ℤ, Lop m (gg m (K - 1)) i
      = -(((K : ℚ) - 1) * (K : ℚ)) * gg m (K - 1) i)
    (hE2 : ∀ i : ℤ, Lop m (gg m (K - 2)) i
      = -(((K : ℚ) - 2) * ((K : ℚ) - 1)) * gg m (K - 2) i)
    (hS1 : ∀ i : ℤ, Fop m (gg m (K - 1)) i
      = -(2 * (K : ℚ)) * (i : ℚ) * gg m (K - 1) i
        + ((K : ℚ) - 1) * (2 * (m : ℚ) + (K : ℚ)) * gg m (K - 2) i) :
    ∀ i : ℤ, Lop m (gg m K) i = -((K : ℚ) * ((K : ℚ) + 1)) * gg m K i := by
  intro i
  have h4 := gg_recc m K (i + 1) hK1 hK2
  have h5 := gg_recc m K (i - 1) hK1 hK2
  have h6 := gg_recc m K i hK1 hK2
  have h1 := hS1 i
  have h3 := hE1 i
  have h2 := hE2 i
  have hdd := ddc_ne m K hK1 hK2
  apply mul_left_cancel₀ hdd
  simp only [Lop, Fop, aw, ppc, qqc, ddc] at h1 h2 h3 h4 h5 h6 ⊢
  push_cast at h1 h2 h3 h4 h5 h6 ⊢
  linear_combination
    (((m : ℚ) - (i : ℚ)) * ((m : ℚ) + (i : ℚ) + 1)) * h4
    + (((m : ℚ) - ((i : ℚ) - 1)) * ((m : ℚ) + ((i : ℚ) - 1) + 1)) * h5
    + ((K : ℚ) * ((K : ℚ) + 1)
        - (((m : ℚ) - (i : ℚ)) * ((m : ℚ) + (i : ℚ) + 1)
          + ((m : ℚ) - ((i : ℚ) - 1)) * ((m : ℚ) + ((i : ℚ) - 1) + 1))) * h6
    + ((4 * (K : ℚ) - 2) * (i : ℚ)) * h3
    + (4 * (K : ℚ) - 2) * h1
    - (((K : ℚ) - 1) * (2 * (m : ℚ) + (K : ℚ))) * h2

/-- Inductive step for the structure relation
`F g_K = -(2K+2)·X g_K + K(2m+K+1) g_{K-1}`, for `K ≥ 2`. -/
theorem srel_step (m K : ℕ) (hm : 1 ≤ m) (hK2' : 2 ≤ K) (hK2 : K ≤ 2 * m)
    (hE1 : ∀ i : ℤ, Lop m (gg m (K - 1)) i
      = -(((K : ℚ) - 1) * (K : ℚ)) * gg m (K - 1) i)
    (hS1 : ∀ i : ℤ, Fop m (gg m (K - 1)) i
      = -(2 * (K : ℚ)) * (i : ℚ) * gg m (K - 1) i
        + ((K : ℚ) - 1) * (2 * (m : ℚ) + (K : ℚ)) * gg m (K - 2) i)
    (hS2 : ∀ i : ℤ, Fop m (gg m (K - 2)) i
      = -(2 * (K : ℚ) - 2) * (i : ℚ) * gg m (K - 2) i
        + ((K : ℚ) - 2) * (2 * (m : ℚ) + (K : ℚ) - 1) * gg m (K - 3) i) :
    ∀ i : ℤ, Fop m (gg m K) i
      = -(2 * (K : ℚ) + 2) * (i : ℚ) * gg m K i
        + (K : ℚ) * (2 * (m : ℚ) + (K : ℚ) + 1) * gg m (K - 1) i := by
  intro i
  have hcast1 : ((K - 1 : ℕ) : ℚ) = (K : ℚ) - 1 := by
    rw [Nat.cast_sub (by omega), Nat.cast_one]
  have h4 := gg_recc m K (i + 1) (by omega) hK2
  have h5 := gg_recc m K (i - 1) (by omega) hK2
  have h6 := gg_recc m K i (by omega) hK2
  have h7 := gg_recc m (K - 1) i (by omega) (by omega)
  have hi1 : K - 1 - 1 = K - 2 := by omega
  have hi2 : K - 1 - 2 = K - 3 := by omega
  rw [hi1, hi2] at h7
  have h1 := hS1 i
  have h3 := hE1 i
  have h2 := hS2 i
  have hdd := ddc_ne m K (by omega) hK2
  have hdd2 := ddc_ne m (K - 1) (by omega) (by omega)
  apply mul_left_cancel₀ (mul_ne_zero hdd hdd2)
  simp only [Lop, Fop, aw, ppc, qqc, ddc] at h1 h2 h3 h4 h5 h6 h7 ⊢
  rw [hcast1] at h7 ⊢
  push_cast at h1 h2 h3 h4 h5 h6 h7 ⊢
  linear_combination
    ((((K : ℚ) - 1) * (2 * (m : ℚ) - ((K : ℚ) - 1) + 1))
      * (((m : ℚ) - (i : ℚ)) * ((m : ℚ) + (i : ℚ) + 1))) * h4
    - ((((K : ℚ) - 1) * (2 * (m : ℚ) - ((K : ℚ) - 1) + 1))
      * (((m : ℚ) - ((i : ℚ) - 1)) * ((m : ℚ) + ((i : ℚ) - 1) + 1))) * h5
    + ((((K : ℚ) - 1) * (2 * (m : ℚ) - ((K : ℚ) - 1) + 1))
      * (2 * (K : ℚ) + 2) * (i : ℚ)) * h6
    + ((((K : ℚ) - 1) * (2 * (m : ℚ) - ((K : ℚ) - 1) + 1))
      * (4 * (K : ℚ) - 2) * (i : ℚ)) * h1
    + ((((K : ℚ) - 1) * (2 * (m : ℚ) - ((K : ℚ) - 1) + 1))
      * (4 * (K : ℚ) - 2)) * h3
    - ((((K : ℚ) - 1) * (2 * (m : ℚ) - ((K : ℚ) - 1) + 1))
      * (((K : ℚ) - 1) * (2 * (m : ℚ) + (K : ℚ)))) * h2
    + ((4 * (K : ℚ) - 2) * (2 * ((m : ℚ) ^ 2 + (m : ℚ)) - ((K : ℚ) - 1) * (K : ℚ))
      - (K : ℚ) * (2 * (m : ℚ) + (K : ℚ) + 1)
        * ((K : ℚ) * (2 * (m : ℚ) - (K : ℚ) + 1))) * h7

/-- The structure relation at order 1, proved directly. -/
theorem srel_one (m : ℕ) (hm : 1 ≤ m) :
    ∀ i : ℤ, Fop m (gg m 1) i
      = -(4 : ℚ) * (i : ℚ) * gg m 1 i + (2 * (m : ℚ) + 2) * gg m 0 i := by
  intro i
  have h4 := gg_recc m 1 (i + 1) le_rfl (by omega)
  have h5 := gg_recc m 1 (i - 1) le_rfl (by omega)
  have h6 := gg_recc m 1 i le_rfl (by omega)
  rw [gg_zero_eq] at h4 h5 h6
  have hdd := ddc_ne m 1 le_rfl (by omega)
  apply mul_left_cancel₀ hdd
  rw [gg_zero_eq]
  simp only [Fop, aw, ppc, qqc, ddc] at h4 h5 h6 ⊢
  push_cast at h4 h5 h6 ⊢
  linear_combination
    (((m : ℚ) - (i : ℚ)) * ((m : ℚ) + (i : ℚ) + 1)) * h4
    - (((m : ℚ) - ((i : ℚ) - 1)) * ((m : ℚ) + ((i : ℚ) - 1) + 1)) * h5
    + (4 * (i : ℚ)) * h6

/-- The Gram polynomials are eigenfunctions of the discrete Sturm-Liouville
operator and satisfy the structure relation, for all orders `K ≤ 2m`. -/
theorem eig_srel (m : ℕ) (hm : 1 ≤ m) :
    ∀ K : ℕ, K ≤ 2 * m →
      (∀ i : ℤ, Lop m (gg m K) i = -((K : ℚ) * ((K : ℚ) + 1)) * gg m K i) ∧
      (∀ i : ℤ, Fop m (gg m K) i
        = -(2 * (K : ℚ) + 2) * (i : ℚ) * gg m K i
          + (K : ℚ) * (2 * (m : ℚ) + (K : ℚ) + 1) * gg m (K - 1) i) := by
  intro K
  induction K using Nat.strong_induction_on with
  | _ K ih =>
    intro hK2m
    rcases Nat.eq_zero_or_pos K with hK0 | hK1
    · subst hK0
      refine ⟨fun i => ?_, fun i => ?_⟩
      · simp only [Lop, aw, gg_zero_eq]
        push_cast
        ring
      · simp only [Fop, aw, gg_zero_eq]
        push_cast
        ring
    · -- K ≥ 1: convert the induction hypotheses into the clean cast form
      obtain ⟨hE1raw, hS1raw⟩ := ih (K - 1) (by omega) (by omega)
      obtain ⟨hE2raw, hS2raw⟩ := ih (K - 2) (by omega) (by omega)
      have hcast1 : ((K - 1 : ℕ) : ℚ) = (K : ℚ) - 1 := by
        rw [Nat.cast_sub (by omega), Nat.cast_one]
      have hcast2 : ((K - 2 : ℕ) : ℚ) * (((K - 2 : ℕ) : ℚ) + 1)
          = ((K : ℚ) - 2) * ((K : ℚ) - 1) := by
        rcases Nat.lt_or_ge K 2 with hlt | hge
        · have hK : K = 1 := by omega
          subst hK
          norm_num
        · rw [Nat.cast_sub hge]
          push_cast
          ring
      have hE1 : ∀ i : ℤ, Lop m (gg m (K - 1)) i
          = -(((K : ℚ) - 1) * (K : ℚ)) * gg m (K - 1) i := by
        intro i
        rw [hE1raw i, hcast1]
        ring
      have hE2 : ∀ i : ℤ, Lop m (gg m (K - 2)) i
          = -(((K : ℚ) - 2) * ((K : ℚ) - 1)) * gg m (K - 2) i := by
        intro i
        rw [hE2raw i, hcast2]
      have hS1 : ∀ i : ℤ, Fop m (gg m (K - 1)) i
          = -(2 * (K : ℚ)) * (i : ℚ) * gg m (K - 1) i
            + ((K : ℚ) - 1) * (2 * (m : ℚ) + (K : ℚ)) * gg m (K - 2) i := by
        intro i
        have h := hS1raw i
        rw [hcast1] at h
        have hidx : K - 1 - 1 = K - 2 := by omega
        rw [hidx] at h
        rw [h]
        ring
      refine ⟨eig_step m K hm hK1 hK2m hE1 hE2 hS1, ?_⟩
      rcases Nat.lt_or_ge K 2 with hKlt | hKge
      · -- K = 1
        have hK : K = 1 := by omega
        subst hK
        intro i
        have h := srel_one m hm i
        rw [h]
        push_cast
        ring
      · -- K ≥ 2
        have hcast2' : ((K - 2 : ℕ) : ℚ) = (K : ℚ) - 2 := by
          rw [Nat.cast_sub hKge]
          push_cast
          ring
        have hS2 : ∀ i : ℤ, Fop m (gg m (K - 2)) i
            = -(2 * (K : ℚ) - 2) * (i : ℚ) * gg m (K - 2) i
              + ((K : ℚ) - 2) * (2 * (m : ℚ) + (K : ℚ) - 1) * gg m (K - 3) i := by
          intro i
          have h := hS2raw i
          rw [hcast2'] at h
          have hidx : K - 2 - 1 = K - 3 := by omega
          rw [hidx] at h
          rw [h]
          ring
        exact srel_step m K hm hKge hK2m hE1 hS1 hS2

theorem sum_shift_range (c : ℤ) (f : ℤ → ℚ) :
    ∀ N : ℕ, ∑ i ∈ Finset.Icc c (c + (N : ℤ) - 1), f i = ∑ j ∈ Finset.range N, f (c + (j : ℤ)) := by
  intro N
  induction N with
  | zero =>
    rw [Finset.Icc_eq_empty (by omega)]
    simp
  | succ N ih =>
    have e1 : c + ((N + 1 : ℕ) : ℤ) - 1 = c + (N : ℤ) := by push_cast; ring
    rw [e1]
    have hins : Finset.Icc c (c + (N : ℤ))
        = insert (c + (N : ℤ)) (Finset.Icc c (c + (N : ℤ) - 1)) := by
      ext x
      simp only [Finset.mem_Icc, Finset.mem_insert]
      omega
    have hnm : (c + (N : ℤ)) ∉ Finset.Icc c (c + (N : ℤ) - 1) := by
      simp only [Finset.mem_Icc]
      omega
    rw [hins, Finset.sum_insert hnm, ih, Finset.sum_range_succ, add_comm]

theorem tele_sum (m : ℕ) (W : ℤ → ℚ) :
    ∑ i ∈ Finset.Icc (-(m : ℤ)) (m : ℤ), (W i - W (i - 1))
      = W (m : ℤ) - W (-(m : ℤ) - 1) := by
  have h := sum_shift_range (-(m : ℤ)) (fun i => W i - W (i - 1)) (2 * m + 1)
  have e0 : -(m : ℤ) + ((2 * m + 1 : ℕ) : ℤ) - 1 = (m : ℤ) := by push_cast; ring
  rw [e0] at h
  rw [h]
  have h2 := Finset.sum_range_sub (fun j : ℕ => W (-(m : ℤ) + (j : ℤ) - 1)) (2 * m + 1)
  have e3 : ∀ j : ℕ, -(m : ℤ) + ((j + 1 : ℕ) : ℤ) - 1 = -(m : ℤ) + (j : ℤ) := by
    intro j
    push_cast
    ring
  simp only [e3] at h2
  have e5 : -(m : ℤ) + ((2 * m : ℕ) : ℤ) = (m : ℤ) := by push_cast; ring
  have e4 : -(m : ℤ) + ((0 : ℕ) : ℤ) - 1 = -(m : ℤ) - 1 := by push_cast; ring
  rw [e5, e4] at h2
  exact h2

theorem aw_top (m : ℕ) : aw m (m : ℤ) = 0 := by
  simp only [aw]
  push_cast
  ring

theorem aw_bot (m : ℕ) : aw m (-(m : ℤ) - 1) = 0 := by
  simp only [aw]
  push_cast
  ring

/-- `Lop` is self-adjoint on `[-m, m]` (summation by parts; the boundary
terms vanish because `aw` vanishes at `m` and `-m-1`). -/
theorem ip_Lop (m : ℕ) (f g : ℤ → ℚ) :
    ip m (Lop m f) g = ip m f (Lop m g) := by
  have key : ∀ i : ℤ, Lop m f i * g i - f i * Lop m g i
      = (fun i => aw m i * (f (i + 1) * g i - f i * g (i + 1))) i
        - (fun i => aw m i * (f (i + 1) * g i - f i * g (i + 1))) (i - 1) := by
    intro i
    simp only [Lop]
    have e : i - 1 + 1 = i := by ring
    rw [e]
    ring
  have h := tele_sum m (fun i => aw m i * (f (i + 1) * g i - f i * g (i + 1)))
  have h2 : ip m (Lop m f) g - ip m f (Lop m g) = 0 := by
    rw [ip, ip, ← Finset.sum_sub_distrib]
    rw [Finset.sum_congr rfl (fun i _ => key i), h]
    rw [aw_top, aw_bot]
    ring
  linarith [h2]

/-- `Fop` is anti-self-adjoint on `[-m, m]`. -/
theorem ip_Fop (m : ℕ) (f g : ℤ → ℚ) :
    ip m (Fop m f) g = -ip m f (Fop m g) := by
  have key : ∀ i : ℤ, Fop m f i * g i + f i * Fop m g i
      = (fun i => aw m i * (f (i + 1) * g i + f i * g (i + 1))) i
        - (fun i => aw m i * (f (i + 1) * g i + f i * g (i + 1))) (i - 1) := by
    intro i
    simp only [Fop]
    have e : i - 1 + 1 = i := by ring
    rw [e]
    ring
  have h := tele_sum m (fun i => aw m i * (f (i + 1) * g i + f i * g (i + 1)))
  have h2 : ip m (Fop m f) g + ip m f (Fop m g) = 0 := by
    rw [ip, ip, ← Finset.sum_add_distrib]
    rw [Finset.sum_congr rfl (fun i _ => key i), h]
    rw [aw_top, aw_bot]
    ring
  linarith [h2]

/-- Orthogonality of the Gram polynomials of distinct orders `≤ 2m`. -/
theorem gg_ortho (m : ℕ) (hm : 1 ≤ m) (j k : ℕ) (hj : j ≤ 2 * m)
    (hk : k ≤ 2 * m) (hne : j ≠ k) :
    ip m (gg m j) (gg m k) = 0 := by
  have hLj := (eig_srel m hm j hj).1
  have hLk := (eig_srel m hm k hk).1
  have h := ip_Lop m (gg m j) (gg m k)
  have e1 : ip m (Lop m (gg m j)) (gg m k)
      = -((j : ℚ) * ((j : ℚ) + 1)) * ip m (gg m j) (gg m k) := by
    rw [ip, ip, Finset.mul_sum]
    exact Finset.sum_congr rfl (fun i _ => by rw [hLj i]; ring)
  have e2 : ip m (gg m j) (Lop m (gg m k))
      = -((k : ℚ) * ((k : ℚ) + 1)) * ip m (gg m j) (gg m k) := by
    rw [ip, ip, Finset.mul_sum]
    exact Finset.sum_congr rfl (fun i _ => by rw [hLk i]; ring)
  rw [e1, e2] at h
  have hfac : ((k : ℚ) - (j : ℚ)) * ((k : ℚ) + (j : ℚ) + 1) ≠ 0 := by
    refine mul_ne_zero (sub_ne_zero.mpr ?_) ?_
    · exact fun hjk => hne (by exact_mod_cast hjk.symm)
    · positivity
  have : (((k : ℚ) - (j : ℚ)) * ((k : ℚ) + (j : ℚ) + 1))
      * ip m (gg m j) (gg m k) = 0 := by
    linear_combination h
  exact (mul_eq_zero.mp this).resolve_left hfac

/-- The structure relation at order `K-1`, with the casts expressed in terms
of `K`. -/
theorem srel_pred (m K : ℕ) (hm : 1 ≤ m) (hK1 : 1 ≤ K) (hK : K ≤ 2 * m) :
    ∀ i : ℤ, Fop m (gg m (K - 1)) i
      = -(2 * (K : ℚ)) * (i : ℚ) * gg m (K - 1) i
        + ((K : ℚ) - 1) * (2 * (m : ℚ) + (K : ℚ)) * gg m (K - 2) i := by
  intro i
  have h := (eig_srel m hm (K - 1) (by omega)).2 i
  have hcast1 : ((K - 1 : ℕ) : ℚ) = (K : ℚ) - 1 := by
    rw [Nat.cast_sub (by omega), Nat.cast_one]
  rw [hcast1] at h
  have hidx : K - 1 - 1 = K - 2 := by omega
  rw [hidx] at h
  rw [h]
  ring

/-- Pairing the structure relation at orders `K` and `K-1` through the
anti-self-adjointness of `Fop` relates the mixed moment
`S = Σ i·g_K(i)·g_{K-1}(i)` to the norm of `g_{K-1}`. -/
theorem Sval_rel (m K : ℕ) (hm : 1 ≤ m) (hK1 : 1 ≤ K) (hK : K ≤ 2 * m) :
    (4 * (K : ℚ) + 2) * ip m (fun i => (i : ℚ) * gg m K i) (gg m (K - 1))
      = (K : ℚ) * (2 * (m : ℚ) + (K : ℚ) + 1) * ip m (gg m (K - 1)) (gg m (K - 1)) := by
  have hSK := (eig_srel m hm K hK).2
  have hSK1 := srel_pred m K hm hK1 hK
  have hanti := ip_Fop m (gg m K) (gg m (K - 1))
  have eL : ip m (Fop m (gg m K)) (gg m (K - 1))
      = -(2 * (K : ℚ) + 2) * ip m (fun i => (i : ℚ) * gg m K i) (gg m (K - 1))
        + (K : ℚ) * (2 * (m : ℚ) + (K : ℚ) + 1)
          * ip m (gg m (K - 1)) (gg m (K - 1)) := by
    rw [ip, ip, ip, Finset.mul_sum, Finset.mul_sum, ← Finset.sum_add_distrib]
    exact Finset.sum_congr rfl fun i _ => by rw [hSK i]; ring
  have eR : ip m (gg m K) (Fop m (gg m (K - 1)))
      = -(2 * (K : ℚ)) * ip m (fun i => (i : ℚ) * gg m K i) (gg m (K - 1))
        + ((K : ℚ) - 1) * (2 * (m : ℚ) + (K : ℚ)) * ip m (gg m K) (gg m (K - 2)) := by
    rw [ip, ip, ip, Finset.mul_sum, Finset.mul_sum, ← Finset.sum_add_distrib]
    exact Finset.sum_congr rfl fun i _ => by rw [hSK1 i]; ring
  have hortho : ip m (gg m K) (gg m (K - 2)) = 0 :=
    gg_ortho m hm K (K - 2) hK (by omega) (by omega)
  rw [eL, eR, hortho] at hanti
  linarith [hanti]

/-- The cleared recurrence relates the mixed moment to the norm of `g_K`. -/
theorem Sval_eq_norm (m K : ℕ) (hm : 1 ≤ m) (hK1 : 1 ≤ K) (hK : K ≤ 2 * m) :
    ppc K * ip m (fun i => (i : ℚ) * gg m K i) (gg m (K - 1))
      = ddc m K * ip m (gg m K) (gg m K) := by
  have h0 : ip m (gg m K) (gg m (K - 2)) = 0 :=
    gg_ortho m hm K (K - 2) hK (by omega) (by omega)
  have key : ppc K * ip m (fun i => (i : ℚ) * gg m K i) (gg m (K - 1))
      - ddc m K * ip m (gg m K) (gg m K)
      = qqc m K * ip m (gg m K) (gg m (K - 2)) := by
    rw [ip, ip, ip, Finset.mul_sum, Finset.mul_sum, Finset.mul_sum,
      ← Finset.sum_sub_distrib]
    refine Finset.sum_congr rfl fun i _ => ?_
    linear_combination (-(gg m K i)) * gg_recc m K i hK1 hK
  rw [h0, mul_zero] at key
  linarith [key]

theorem ip_gg_zero (m : ℕ) : ip m (gg m 0) (gg m 0) = ((2 * m + 1 : ℕ) : ℚ) := by
  rw [ip]
  have hone : ∀ i ∈ Finset.Icc (-(m : ℤ)) (m : ℤ), gg m 0 i * gg m 0 i = 1 := by
    intro i _
    rw [gg_zero_eq]
    ring
  rw [Finset.sum_congr rfl hone, Finset.sum_const, Int.card_Icc]
  have e : ((m : ℤ) + 1 - -(m : ℤ)).toNat = 2 * m + 1 := by omega
  rw [e]
  simp

/-- Peeling the top factor of a falling factorial. -/
theorem gf_peel (a : ℤ) (b : ℕ) :
    generalized_factorial (a + 1) ((b : ℤ) + 1)
      = (((a + 1 : ℤ)) : ℚ) * generalized_factorial a (b : ℤ) := by
  have e : ((a : ℤ) + 1 + (-1 : ℤ)) = a := by ring
  have h1 : ((b : ℤ) + 1) = ((b + 1 : ℕ) : ℤ) := by push_cast; ring
  rw [h1, gf_ofNat, gf_ofNat, Finset.prod_range_succ']
  have e2 : ∀ i : ℕ, (a + 1 - ((i + 1 : ℕ) : ℤ)) = a - (i : ℤ) := by
    intro i
    push_cast
    ring
  rw [Finset.prod_congr rfl (fun i _ => by rw [e2 i])]
  simp [mul_comm]

/-- `GF(a,1) = a`. -/
theorem gf_one (a : ℤ) : generalized_factorial a 1 = ((a : ℤ) : ℚ) := by
  have h := gf_succ a 0
  rw [Nat.cast_zero, gf_zero, one_mul, zero_add] at h
  simpa using h

/-- Generic recovery of the normalized form from the cleared form. -/
theorem div_norm_helper (a X Y h : ℚ) (hY : Y ≠ 0) (heq : a * X * h = Y) :
    a * (X / Y) * h = 1 := by
  field_simp
  linarith [heq]

/-- Normalization: the weight coefficient `(2k+1)·C(m,k)` is exactly the
reciprocal of the norm `⟨g_k, g_k⟩`, for every `k ≤ 2m`. -/
theorem weight_norm (m : ℕ) (hm : 1 ≤ m) :
    ∀ K : ℕ, K ≤ 2 * m →
      (2 * (K : ℚ) + 1)
        * (generalized_factorial (2 * (m : ℤ)) (K : ℤ)
            / generalized_factorial (2 * (m : ℤ) + (K : ℤ) + 1) ((K : ℤ) + 1))
        * ip m (gg m K) (gg m K) = 1 := by
  intro K
  induction K with
  | zero =>
    intro hK
    rw [ip_gg_zero]
    have e0 : generalized_factorial (2 * (m : ℤ)) ((0 : ℕ) : ℤ) = 1 := by
      rw [Nat.cast_zero, gf_zero]
    have e1 : generalized_factorial (2 * (m : ℤ) + ((0 : ℕ) : ℤ) + 1) (((0 : ℕ) : ℤ) + 1)
        = ((2 * (m : ℤ) + 1 : ℤ) : ℚ) := by
      rw [Nat.cast_zero, add_zero, zero_add, gf_one]
    rw [e0, e1]
    have hne : ((2 * (m : ℤ) + 1 : ℤ) : ℚ) ≠ 0 := by
      push_cast
      positivity
    refine div_norm_helper _ _ _ _ hne ?_
    push_cast
    ring
  | succ K ih =>
    intro hK
    have hK' : K ≤ 2 * m := by omega
    have ih' := ih hK'
    have e1 := Sval_rel m (K + 1) hm (by omega) hK
    have e2 := Sval_eq_norm m (K + 1) hm (by omega) hK
    simp only [ppc, ddc, Nat.add_sub_cancel] at e1 e2
    push_cast at e1 e2
    have hA0 : (0 : ℚ) < generalized_factorial (2 * (m : ℤ)) (K : ℤ) :=
      gf_pos _ K (by omega)
    have hB0 : (0 : ℚ) < generalized_factorial (2 * (m : ℤ) + (K : ℤ) + 1) ((K : ℤ) + 1) := by
      have h := gf_pos (2 * (m : ℤ) + (K : ℤ) + 1) (K + 1) (by push_cast; omega)
      have e : ((K + 1 : ℕ) : ℤ) = (K : ℤ) + 1 := by push_cast; ring
      rw [e] at h
      exact h
    have ihc : (2 * (K : ℚ) + 1) * generalized_factorial (2 * (m : ℤ)) (K : ℤ)
        * ip m (gg m K) (gg m K)
        = generalized_factorial (2 * (m : ℤ) + (K : ℤ) + 1) ((K : ℤ) + 1) := by
      have hexp := div_norm_helper (2 * (K : ℚ) + 1)
        (generalized_factorial (2 * (m : ℤ)) (K : ℤ))
        (generalized_factorial (2 * (m : ℤ) + (K : ℤ) + 1) ((K : ℤ) + 1))
        (ip m (gg m K) (gg m K)) hB0.ne'
      by_contra hne
      have h2 := ih'
      rw [div_eq_mul_inv] at h2
      have := mul_ne_zero hB0.ne' (sub_ne_zero.mpr hne)
      -- direct route instead: clear denominators in ih'
      exact hne (by
        have hB0' := hB0.ne'
        field_simp at h2
        linarith [h2])
    have hcomb : (4 * (K : ℚ) + 6) * (((K : ℚ) + 1) * (2 * (m : ℚ) - (K : ℚ)))
        * ip m (gg m (K + 1)) (gg m (K + 1))
        = (4 * (K : ℚ) + 2) * (((K : ℚ) + 1) * (2 * (m : ℚ) + (K : ℚ) + 2))
          * ip m (gg m K) (gg m K) := by
      linear_combination (-(4 * (K : ℚ) + 6)) * e2 + (4 * (K : ℚ) + 2) * e1
    have eA : generalized_factorial (2 * (m : ℤ)) (((K + 1 : ℕ)) : ℤ)
        = generalized_factorial (2 * (m : ℤ)) (K : ℤ)
          * ((2 * (m : ℤ) - (K : ℤ) : ℤ) : ℚ) := by
      have e : ((K + 1 : ℕ) : ℤ) = (K : ℤ) + 1 := by push_cast; ring
      rw [e, gf_succ]
    have eB : generalized_factorial (2 * (m : ℤ) + ((K + 1 : ℕ) : ℤ) + 1)
          (((K + 1 : ℕ) : ℤ) + 1)
        = ((2 * (m : ℤ) + (K : ℤ) + 2 : ℤ) : ℚ)
          * generalized_factorial (2 * (m : ℤ) + (K : ℤ) + 1) ((K : ℤ) + 1) := by
      have e2' : ((K + 1 : ℕ) : ℤ) = (K : ℤ) + 1 := by push_cast; ring
      have h := gf_peel (2 * (m : ℤ) + (K : ℤ) + 1) (K + 1)
      rw [e2'] at h
      have e3 : 2 * (m : ℤ) + ((K + 1 : ℕ) : ℤ) + 1 = 2 * (m : ℤ) + (K : ℤ) + 1 + 1 := by
        push_cast
        ring
      rw [e3, e2', h]
      push_cast
      ring
    rw [eA, eB]
    have hY : ((2 * (m : ℤ) + (K : ℤ) + 2 : ℤ) : ℚ)
        * generalized_factorial (2 * (m : ℤ) + (K : ℤ) + 1) ((K : ℤ) + 1) ≠ 0 := by
      refine mul_ne_zero ?_ hB0.ne'
      push_cast
      positivity
    refine div_norm_helper _ _ _ _ hY ?_
    apply mul_left_cancel₀ (show (2 * ((K : ℚ) + 1)) ≠ 0 by positivity)
    push_cast
    linear_combination (generalized_factorial (2 * (m : ℤ)) (K : ℤ)) * hcomb
      + (2 * ((K : ℚ) + 1) * (2 * (m : ℚ) + (K : ℚ) + 2)) * ihc

/-- Folding one weighted summand of the `weights` sum into an inner product. -/
theorem inner_ip (m j k : ℕ) (c : ℚ) (t : ℤ) :
    ∑ i ∈ Finset.Icc (-(m : ℤ)) (m : ℤ),
        c * gram_poly i (m : ℤ) (j : ℤ) 0 * gram_poly t (m : ℤ) (j : ℤ) 0 * gg m k i
      = c * gg m j t * ip m (gg m j) (gg m k) := by
  rw [ip, Finset.mul_sum]
  exact Finset.sum_congr rfl (fun i _ => by simp only [gg]; ring)

/-- The filter reproduces each Gram polynomial of order `≤ n` on the grid:
convolving the weights (evaluation offset `t`) against the samples of `g_k`
returns `g_k(t)`. -/
theorem repro_gg (m n : ℕ) (hm : 1 ≤ m) (hn : n ≤ 2 * m) (t : ℤ) (k : ℕ)
    (hk : k ≤ n) :
    ∑ i ∈ Finset.Icc (-(m : ℤ)) (m : ℤ), weights i (m : ℤ) (n : ℤ) t 0 * gg m k i
      = gg m k t := by
  have hrange : ((n : ℤ) + 1).toNat = n + 1 := by omega
  simp only [weights, hrange, Finset.sum_mul]
  rw [Finset.sum_comm]
  have hconv : ∀ j ∈ Finset.range (n + 1),
      ∑ i ∈ Finset.Icc (-(m : ℤ)) (m : ℤ),
          ((2 * (j : ℤ) + 1 : ℤ) : ℚ)
            * (generalized_factorial (2 * (m : ℤ)) (j : ℤ)
                / generalized_factorial (2 * (m : ℤ) + (j : ℤ) + 1) ((j : ℤ) + 1))
            * gram_poly i (m : ℤ) (j : ℤ) 0 * gram_poly t (m : ℤ) (j : ℤ) 0 * gg m k i
        = ((2 * (j : ℤ) + 1 : ℤ) : ℚ)
            * (generalized_factorial (2 * (m : ℤ)) (j : ℤ)
                / generalized_factorial (2 * (m : ℤ) + (j : ℤ) + 1) ((j : ℤ) + 1))
            * gg m j t * ip m (gg m j) (gg m k) :=
    fun j _ => inner_ip m j k _ t
  rw [Finset.sum_congr rfl hconv,
    Finset.sum_eq_single_of_mem k (Finset.mem_range.mpr (by omega))]
  · have h := weight_norm m hm k (le_trans hk hn)
    have hc : ((2 * (k : ℤ) + 1 : ℤ) : ℚ) = 2 * (k : ℚ) + 1 := by push_cast; ring
    rw [hc]
    linear_combination gg m k t * h
  · intro j hj hne
    have hjn : j ≤ n := by
      have := Finset.mem_range.mp hj
      omega
    rw [gg_ortho m hm j k (le_trans hjn hn) (le_trans hk hn) hne, mul_zero]

theorem mulX_apply (f : ℤ → ℚ) (i : ℤ) : mulX f i = (i : ℚ) * f i := rfl

theorem ppc_succ_ne (k : ℕ) : ppc (k + 1) ≠ 0 := by
  have h : (0 : ℚ) ≤ (k : ℚ) := Nat.cast_nonneg k
  simp only [ppc]
  push_cast
  intro hc
  nlinarith

/-- The three-term recurrence expresses `x·g_k` in the Gram basis. -/
theorem mulX_gg (m k : ℕ) (hk : k + 1 ≤ 2 * m) :
    mulX (gg m k) = (ddc m (k + 1) / ppc (k + 1)) • gg m (k + 1)
      + (qqc m (k + 1) / ppc (k + 1)) • gg m (k - 1) := by
  funext i
  have hrec := gg_recc m (k + 1) i (by omega) hk
  have hidx : k + 1 - 1 = k := by omega
  have hidx2 : k + 1 - 2 = k - 1 := by omega
  rw [hidx, hidx2] at hrec
  have hp := ppc_succ_ne k
  simp only [Pi.add_apply, Pi.smul_apply, smul_eq_mul, mulX_apply]
  field_simp
  linear_combination -hrec

/-- Every monomial of degree `d ≤ 2m` lies in the span of the Gram
polynomials of orders `≤ d`. -/
theorem mono_mem_span (m : ℕ) : ∀ d : ℕ, d ≤ 2 * m →
    (fun i : ℤ => (i : ℚ) ^ d)
      ∈ Submodule.span ℚ ((fun k => gg m k) '' (Set.Iic d)) := by
  intro d
  induction d with
  | zero =>
    intro _
    have he : (fun i : ℤ => (i : ℚ) ^ 0) = gg m 0 := by
      funext i
      rw [pow_zero, gg_zero_eq]
    rw [he]
    exact Submodule.subset_span ⟨0, Set.mem_Iic.mpr le_rfl, rfl⟩
  | succ d ih =>
    intro hd
    have hmem := ih (by omega)
    have hmx : (fun i : ℤ => (i : ℚ) ^ (d + 1)) = mulX (fun i : ℤ => (i : ℚ) ^ d) := by
      funext i
      rw [mulX_apply, pow_succ]
      ring
    rw [hmx]
    have h1 : mulX (fun i : ℤ => (i : ℚ) ^ d)
        ∈ Submodule.span ℚ (mulX '' ((fun k => gg m k) '' (Set.Iic d))) := by
      rw [← Submodule.map_span]
      exact Submodule.mem_map_of_mem hmem
    have h2 : Submodule.span ℚ (mulX '' ((fun k => gg m k) '' (Set.Iic d)))
        ≤ Submodule.span ℚ ((fun k => gg m k) '' (Set.Iic (d + 1))) := by
      refine Submodule.span_le.mpr ?_
      rintro y ⟨g, ⟨k, hkle, rfl⟩, rfl⟩
      have hkd : k ≤ d := Set.mem_Iic.mp hkle
      rw [mulX_gg m k (by omega)]
      refine Submodule.add_mem _ ?_ ?_
      · exact Submodule.smul_mem _ _
          (Submodule.subset_span ⟨k + 1, Set.mem_Iic.mpr (by omega), rfl⟩)
      · exact Submodule.smul_mem _ _
          (Submodule.subset_span ⟨k - 1, Set.mem_Iic.mpr (by omega), rfl⟩)
    exact h2 h1

/-- The reproduction property extends linearly over the Gram span. -/
theorem repro_span (m n : ℕ) (hm : 1 ≤ m) (hn : n ≤ 2 * m) (t : ℤ) (f : ℤ → ℚ)
    (hf : f ∈ Submodule.span ℚ ((fun k => gg m k) '' (Set.Iic n))) :
    ∑ i ∈ Finset.Icc (-(m : ℤ)) (m : ℤ), weights i (m : ℤ) (n : ℤ) t 0 * f i
      = f t := by
  induction hf using Submodule.span_induction with
  | mem x hx =>
    obtain ⟨k, hkle, rfl⟩ := hx
    exact repro_gg m n hm hn t k (Set.mem_Iic.mp hkle)
  | zero => simp
  | add x y hx hy ihx ihy =>
    simp only [Pi.add_apply, mul_add, Finset.sum_add_distrib]
    rw [ihx, ihy]
  | smul a x hx ih =>
    simp only [Pi.smul_apply, smul_eq_mul]
    calc ∑ i ∈ Finset.Icc (-(m : ℤ)) (m : ℤ),
            weights i (m : ℤ) (n : ℤ) t 0 * (a * x i)
        = a * ∑ i ∈ Finset.Icc (-(m : ℤ)) (m : ℤ),
            weights i (m : ℤ) (n : ℤ) t 0 * x i := by
          rw [Finset.mul_sum]
          exact Finset.sum_congr rfl (fun i _ => by ring)
      _ = a * x t := by rw [ih]

/-- Exactness on polynomials at the weight level: for `deg p ≤ n ≤ 2m`, the
convolution of the weights against the samples of `p` returns `p(t)`. -/
theorem repro_poly (m n : ℕ) (hm : 1 ≤ m) (hn : n ≤ 2 * m) (t : ℤ)
    (p : Polynomial ℚ) (hp : p.natDegree ≤ n) :
    ∑ i ∈ Finset.Icc (-(m : ℤ)) (m : ℤ),
        weights i (m : ℤ) (n : ℤ) t 0 * p.eval (i : ℚ) = p.eval (t : ℚ) := by
  refine repro_span m n hm hn t (fun i : ℤ => p.eval (i : ℚ)) ?_
  have he : (fun i : ℤ => p.eval (i : ℚ))
      = ∑ j ∈ Finset.range (n + 1), p.coeff j • (fun i : ℤ => (i : ℚ) ^ j) := by
    funext i
    rw [Finset.sum_apply,
      Polynomial.eval_eq_sum_range' (lt_of_le_of_lt hp (Nat.lt_succ_self n))]
    exact Finset.sum_congr rfl (fun j _ => by simp [smul_eq_mul])
  rw [he]
  refine Submodule.sum_mem _ (fun j hj => ?_)
  refine Submodule.smul_mem _ _ ?_
  have hjn : j ≤ n := by
    have := Finset.mem_range.mp hj
    omega
  have hsub : Submodule.span ℚ ((fun k => gg m k) '' (Set.Iic j))
      ≤ Submodule.span ℚ ((fun k => gg m k) '' (Set.Iic n)) :=
    Submodule.span_mono (Set.image_mono (Set.Iic_subset_Iic.mpr hjn))
  exact hsub (mono_mem_span m j (le_trans hjn hn))

/-- A radius-0, degree-0 window produces the single weight 1: the sum has
only its `k = 0` term, which reaches no division. -/
theorem weights_zero_radius : weights 0 ((0 : ℕ) : ℤ) ((0 : ℕ) : ℤ) 0 0 = 1 := by
  simp only [weights]
  have h1 : ((((0 : ℕ) : ℤ)) + 1).toNat = 0 + 1 := by omega
  rw [h1, Finset.sum_range_one]
  have hg : gram_poly 0 ((0 : ℕ) : ℤ) ((0 : ℕ) : ℤ) 0 = 1 := by
    rw [Nat.cast_zero]
    exact gram_poly_base 0 0
  rw [hg]
  have hgf0 : generalized_factorial (2 * ((0 : ℕ) : ℤ)) ((0 : ℕ) : ℤ) = 1 := by
    rw [Nat.cast_zero, gf_zero]
  have hgf1 : generalized_factorial (2 * ((0 : ℕ) : ℤ) + ((0 : ℕ) : ℤ) + 1)
      (((0 : ℕ) : ℤ) + 1) = 1 := by
    have h := gf_one (2 * ((0 : ℕ) : ℤ) + ((0 : ℕ) : ℤ) + 1)
    rw [show (((0 : ℕ) : ℤ) + 1 : ℤ) = 1 by norm_num, h]
    norm_num
  rw [hgf0, hgf1]
  norm_num

/-- Single-window reproduction on the recurrence's domain `n ≤ 2r`: a window
of `2r+1` samples of a polynomial of degree `≤ n` is reproduced at every
in-window offset by least-squares exactness (trivially for `r = 0`, where
`n = 0` and the single weight is 1). -/
theorem windowed_repro (r n : ℕ) (hn : n ≤ 2 * r) (t : ℤ) (ht1 : -(r : ℤ) ≤ t)
    (ht2 : t ≤ (r : ℤ)) (p : Polynomial ℚ) (hp : p.natDegree ≤ n) (c : ℤ) :
    ∑ i ∈ Finset.Icc (-(r : ℤ)) (r : ℤ),
        weights i (r : ℤ) (n : ℤ) t 0 * p.eval (((c + i : ℤ)) : ℚ)
      = p.eval (((c + t : ℤ)) : ℚ) := by
  rcases Nat.eq_zero_or_pos r with hr0 | hrpos
  · subst hr0
    have hn0 : n = 0 := by omega
    subst hn0
    have hz : ((0 : ℕ) : ℤ) = 0 := Nat.cast_zero
    have ht0 : t = 0 := by omega
    subst ht0
    rw [show Finset.Icc (-((0 : ℕ) : ℤ)) (((0 : ℕ)) : ℤ) = {0} by
        rw [hz, neg_zero, Finset.Icc_self],
      Finset.sum_singleton, weights_zero_radius, one_mul]
  · have hnle : n ≤ 2 * r := hn
    have hqdeg : (p.comp (Polynomial.X + Polynomial.C ((c : ℚ)))).natDegree ≤ n := by
        rw [Polynomial.natDegree_comp, Polynomial.natDegree_X_add_C, mul_one]
        exact hp
    have hqeval : ∀ x : ℤ, (p.comp (Polynomial.X + Polynomial.C ((c : ℚ)))).eval
        ((x : ℤ) : ℚ) = p.eval (((c + x : ℤ)) : ℚ) := by
      intro x
      rw [Polynomial.eval_comp]
      simp only [Polynomial.eval_add, Polynomial.eval_X, Polynomial.eval_C]
      congr 1
      push_cast
      ring
    have h := repro_poly r n hrpos hnle t
      (p.comp (Polynomial.X + Polynomial.C ((c : ℚ)))) hqdeg
    calc ∑ i ∈ Finset.Icc (-(r : ℤ)) (r : ℤ),
            weights i (r : ℤ) (n : ℤ) t 0 * p.eval (((c + i : ℤ)) : ℚ)
        = ∑ i ∈ Finset.Icc (-(r : ℤ)) (r : ℤ),
            weights i (r : ℤ) (n : ℤ) t 0
              * (p.comp (Polynomial.X + Polynomial.C ((c : ℚ)))).eval ((i : ℚ)) :=
          Finset.sum_congr rfl (fun i _ => by rw [hqeval i])
      _ = (p.comp (Polynomial.X + Polynomial.C ((c : ℚ)))).eval ((t : ℚ)) := h
      _ = p.eval (((c + t : ℤ)) : ℚ) := hqeval t

theorem getD_take_range (L K j : ℕ) (f : ℕ → ℚ) (hj : j < K) (hKL : K ≤ L) :
    (((List.range L).map f).take K).getD j 0 = f j := by
  rw [List.getD_eq_getElem _ _ (by simp; omega)]
  simp [List.getElem_take]

theorem getD_drop_take_range (L K d j : ℕ) (f : ℕ → ℚ) (hj : j < K)
    (hdK : d + K ≤ L) :
    ((((List.range L).map f).drop d).take K).getD j 0 = f (d + j) := by
  rw [List.getD_eq_getElem _ _ (by simp; omega)]
  simp [List.getElem_take, List.getElem_drop]

/-- `smooth_point` on a window of polynomial samples returns the polynomial
value at the requested offset. -/
theorem smooth_point_poly (r n : ℕ) (hn : n ≤ 2 * r) (t : ℤ) (ht1 : -(r : ℤ) ≤ t)
    (ht2 : t ≤ (r : ℤ)) (p : Polynomial ℚ) (hp : p.natDegree ≤ n) (b : ℤ) (w : List ℚ)
    (hw : ∀ j : ℕ, j < 2 * r + 1 → w.getD j 0 = p.eval (((b + (j : ℤ) : ℤ)) : ℚ)) :
    smooth_point r n 0 t w = p.eval (((b + (r : ℤ) + t : ℤ)) : ℚ) := by
  have hshift := sum_shift_range (-(r : ℤ))
    (fun i => weights i (r : ℤ) (n : ℤ) t 0 * p.eval (((b + (r : ℤ) + i : ℤ)) : ℚ))
    (2 * r + 1)
  have he : -(r : ℤ) + ((2 * r + 1 : ℕ) : ℤ) - 1 = (r : ℤ) := by push_cast; ring
  rw [he] at hshift
  have hmain := windowed_repro r n hn t ht1 ht2 p hp (b + (r : ℤ))
  rw [hshift] at hmain
  simp only [smooth_point, Nat.cast_zero]
  rw [← hmain]
  refine Finset.sum_congr rfl (fun j hj => ?_)
  have hjlt : j < 2 * r + 1 := Finset.mem_range.mp hj
  rw [hw j hjlt]
  have e1 : (j : ℤ) - (r : ℤ) = -(r : ℤ) + (j : ℤ) := by ring
  have e2 : b + (r : ℤ) + (-(r : ℤ) + (j : ℤ)) = b + (j : ℤ) := by ring
  rw [e1, e2]

theorem getD_drop_range (L d j : ℕ) (f : ℕ → ℚ) (hj : d + j < L) :
    (((List.range L).map f).drop d).getD j 0 = f (d + j) := by
  rw [List.getD_eq_getElem _ _ (by simp; omega)]
  simp [List.getElem_drop]

/-- The left edge of the normal branch on polynomial samples. -/
theorem left_edge_poly (r n : ℕ) (hn : n ≤ 2 * r) (p : Polynomial ℚ) (hp : p.natDegree ≤ n)
    (a : ℤ) (L : ℕ) (hLr : 2 * r + 1 ≤ L) :
    smooth_edge r n 0 (-(r : ℤ)) (-1)
        (((List.range L).map
          (fun (j : ℕ) => p.eval ((a + (j : ℤ) : ℤ) : ℚ))).take (2 * r + 1))
      = (List.range r).map (fun (j : ℕ) => p.eval ((a + (j : ℤ) : ℤ) : ℚ)) := by
  simp only [smooth_edge]
  have hr : ((-1 : ℤ) + 1 - -(r : ℤ)).toNat = r := by omega
  rw [hr]
  refine List.map_congr_left ?_
  intro j hj
  have hjr : j < r := List.mem_range.mp hj
  have hw : ∀ j' : ℕ, j' < 2 * r + 1 →
      ((((List.range L).map
          (fun (j'' : ℕ) => p.eval ((a + (j'' : ℤ) : ℤ) : ℚ))).take (2 * r + 1))).getD j' 0
        = p.eval ((a + (j' : ℤ) : ℤ) : ℚ) :=
    fun j' hj' => getD_take_range L (2 * r + 1) j' _ hj' hLr
  rw [smooth_point_poly r n hn (-(r : ℤ) + (j : ℤ)) (by omega) (by omega) p hp a _ hw]
  have harg : a + (r : ℤ) + (-(r : ℤ) + (j : ℤ)) = a + (j : ℤ) := by ring
  rw [harg]

/-- The interior of the normal branch on polynomial samples. -/
theorem mid_poly (r n : ℕ) (hn : n ≤ 2 * r) (p : Polynomial ℚ) (hp : p.natDegree ≤ n)
    (a : ℤ) (L : ℕ) (hLr : 2 * r + 1 ≤ L) :
    (List.range (L - 2 * r)).map
        (fun j => smooth_point r n 0 0
          ((((List.range L).map
            (fun (j' : ℕ) => p.eval ((a + (j' : ℤ) : ℤ) : ℚ))).drop j).take (2 * r + 1)))
      = (List.range (L - 2 * r)).map
          (fun x => p.eval ((a + ((r + x : ℕ) : ℤ) : ℤ) : ℚ)) := by
  refine List.map_congr_left ?_
  intro j hj
  have hjlt : j < L - 2 * r := List.mem_range.mp hj
  have hw : ∀ j' : ℕ, j' < 2 * r + 1 →
      ((((List.range L).map
          (fun (j'' : ℕ) => p.eval ((a + (j'' : ℤ) : ℤ) : ℚ))).drop j).take (2 * r + 1)).getD j' 0
        = p.eval (((a + (j : ℤ)) + (j' : ℤ) : ℤ) : ℚ) := by
    intro j' hj'
    rw [getD_drop_take_range L (2 * r + 1) j j' _ hj' (by omega)]
    congr 1
    push_cast
    ring
  rw [smooth_point_poly r n hn 0 (by omega) (by omega) p hp (a + (j : ℤ)) _ hw]
  have harg : a + (j : ℤ) + (r : ℤ) + 0 = a + ((r + j : ℕ) : ℤ) := by push_cast; ring
  rw [harg]

/-- The right edge of the normal branch on polynomial samples. -/
theorem right_edge_poly (r n : ℕ) (hn : n ≤ 2 * r) (p : Polynomial ℚ) (hp : p.natDegree ≤ n)
    (a : ℤ) (L : ℕ) (hLr : 2 * r + 1 ≤ L) :
    smooth_edge r n 0 1 (r : ℤ)
        (((List.range L).map
          (fun (j : ℕ) => p.eval ((a + (j : ℤ) : ℤ) : ℚ))).drop (L - (2 * r + 1)))
      = (List.range r).map
          (fun x => p.eval ((a + ((r + ((L - 2 * r) + x) : ℕ) : ℤ) : ℤ) : ℚ)) := by
  simp only [smooth_edge]
  have hr : ((r : ℤ) + 1 - 1).toNat = r := by omega
  rw [hr]
  refine List.map_congr_left ?_
  intro j hj
  have hjr : j < r := List.mem_range.mp hj
  have hw : ∀ j' : ℕ, j' < 2 * r + 1 →
      (((List.range L).map
          (fun (j'' : ℕ) => p.eval ((a + (j'' : ℤ) : ℤ) : ℚ))).drop
            (L - (2 * r + 1))).getD j' 0
        = p.eval (((a + ((L - (2 * r + 1) : ℕ) : ℤ)) + (j' : ℤ) : ℤ) : ℚ) := by
    intro j' hj'
    rw [getD_drop_range L (L - (2 * r + 1)) j' _ (by omega)]
    congr 1
    push_cast
    ring
  rw [smooth_point_poly r n hn (1 + (j : ℤ)) (by omega) (by omega) p hp
    (a + ((L - (2 * r + 1) : ℕ) : ℤ)) _ hw]
  have harg : a + ((L - (2 * r + 1) : ℕ) : ℤ) + (r : ℤ) + (1 + (j : ℤ))
      = a + ((r + ((L - 2 * r) + j) : ℕ) : ℤ) := by omega
  rw [harg]

theorem range_map_split (F : ℕ → ℚ) (r L : ℕ) (hLr : 2 * r + 1 ≤ L) :
    (List.range L).map F
      = (List.range r).map F
        ++ (List.range (L - 2 * r)).map (fun x => F (r + x))
        ++ (List.range r).map (fun x => F (r + ((L - 2 * r) + x))) := by
  conv_lhs => rw [show L = r + ((L - 2 * r) + r) by omega]
  rw [List.range_add, List.map_append, List.map_map, List.range_add,
    List.map_append, List.map_map, ← List.append_assoc]
  rfl

/-- The normal branch of `smooth` reproduces polynomial samples exactly. -/
theorem smooth_normal_poly (r n : ℕ) (hn : n ≤ 2 * r) (p : Polynomial ℚ) (hp : p.natDegree ≤ n)
    (a : ℤ) (L : ℕ) (hL2 : 2 < L) (hLr : 2 * r + 1 ≤ L) :
    smooth r n 0 ((List.range L).map (fun (j : ℕ) => p.eval ((a + (j : ℤ) : ℤ) : ℚ)))
      = (List.range L).map (fun (j : ℕ) => p.eval ((a + (j : ℤ) : ℤ) : ℚ)) := by
  have hlen : ((List.range L).map
      (fun (j : ℕ) => p.eval ((a + (j : ℤ) : ℤ) : ℚ))).length = L := by simp
  have h2 : 2 < ((List.range L).map
      (fun (j : ℕ) => p.eval ((a + (j : ℤ) : ℤ) : ℚ))).length := by
    rw [hlen]; omega
  have h3 : 2 * r + 1 ≤ ((List.range L).map
      (fun (j : ℕ) => p.eval ((a + (j : ℤ) : ℤ) : ℚ))).length := by
    rw [hlen]; omega
  rw [smooth_of_normal r n 0 h2 h3, hlen]
  rw [left_edge_poly r n hn p hp a L hLr, mid_poly r n hn p hp a L hLr,
    right_edge_poly r n hn p hp a L hLr]
  exact (range_map_split (fun (j : ℕ) => p.eval ((a + (j : ℤ) : ℤ) : ℚ)) r L hLr).symm

/-- Claim C5 (amended: reproduction on the recurrence's domain): for every
filter configuration `(radius, degree n, derivative 0)` with `n ≤ 2·radius`
and every sequence sampling a polynomial of degree `≤ n` at consecutive
integer positions, provided that when the window-too-large branch is taken
(`len < 2·radius+1`) the reduced radius `m' = (len-1)/2` still satisfies
`n ≤ 2m'`, `smooth` reproduces the input exactly (in exact arithmetic; a
fortiori within any tolerance).  On this domain no Gram-recurrence divisor
vanishes and the log-space and quotient weight engines coincide, so the
embedding is faithful.  Outside it the recurrence divides by zero and the
`f64` output is NaN — see the counterexample. -/
theorem claim_C5 (r n : ℕ) (hnr : n ≤ 2 * r) (p : Polynomial ℚ)
    (hp : p.natDegree ≤ n) (a : ℤ) (L : ℕ)
    (hred : L < 2 * r + 1 → n ≤ 2 * ((L - 1) / 2)) :
    smooth r n 0 ((List.range L).map (fun (j : ℕ) => p.eval ((a + (j : ℤ) : ℤ) : ℚ)))
      = (List.range L).map (fun (j : ℕ) => p.eval ((a + (j : ℤ) : ℤ) : ℚ)) := by
  have hlen : ((List.range L).map
      (fun (j : ℕ) => p.eval ((a + (j : ℤ) : ℤ) : ℚ))).length = L := by simp
  rcases le_or_lt L 2 with hL | hL
  · exact smooth_of_short r n 0 (by rw [hlen]; omega)
  · rcases lt_or_le L (2 * r + 1) with hr | hr
    · have hredd := @smooth_of_reduce
        ((List.range L).map (fun (j : ℕ) => p.eval ((a + (j : ℤ) : ℤ) : ℚ)))
        r n 0 (by rw [hlen]; omega) (by rw [hlen]; omega)
      rw [hredd, hlen]
      exact smooth_normal_poly ((L - 1) / 2) n (hred hr) p hp a L hL (by omega)
    · exact smooth_normal_poly r n hnr p hp a L hL hr

/-- Witness for claim C5: the linear sequence `1,…,7` (the samples of the
degree-1 polynomial `X` at positions `1..7`) is reproduced by the filter
`(radius 2, degree 2, derivative 0)`; the hypotheses `deg ≤ 2`, `2 ≤ 2·2`
and the (vacuous) reduced-radius proviso hold. -/
theorem claim_C5_witness :
    ((2 : ℕ) ≤ 2 * 2 ∧ (Polynomial.X : Polynomial ℚ).natDegree ≤ 2 ∧
        ((7 : ℕ) < 2 * 2 + 1 → (2 : ℕ) ≤ 2 * ((7 - 1) / 2))) ∧
      smooth 2 2 0 ((List.range 7).map
          (fun (j : ℕ) => Polynomial.eval ((1 + (j : ℤ) : ℤ) : ℚ) Polynomial.X))
        = (List.range 7).map
            (fun (j : ℕ) => Polynomial.eval ((1 + (j : ℤ) : ℤ) : ℚ) Polynomial.X) :=
  ⟨⟨by decide, by simp, by decide⟩,
    claim_C5 2 2 (by decide) Polynomial.X (by simp) 1 7 (by decide)⟩

/-- Claim C5 fails as universally stated: `Filter::new(3, 3, 0)` applied to
the four samples `1,2,3,4` of a degree-1 polynomial (degree `≤ n = 3`)
takes the radius-reduction branch to `m' = 1` while keeping `n = 3 > 2m'`;
every weight computation then evaluates the Gram recurrence at `k = 3`,
whose divisor `3·(2·1-3+1) = 0` makes the `f64` computation divide by zero,
so the real `smooth` returns inf/NaN-polluted output — not the input within
any tolerance.  In the division-guarded model the whole smoothing
computation fails. -/
theorem claim_C5_counterexample : smoothW 3 3 0 [(1 : ℚ), 2, 3, 4] = none := by
  have hgp : ∀ i : ℤ, gram_polyC i ((1 : ℕ) : ℤ) ((3 : ℕ) : ℤ) 0 = none := by
    intro i
    rw [gram_polyC]
    norm_num
  have hwC : ∀ i t : ℤ,
      MathRs.weightsC i ((1 : ℕ) : ℤ) ((3 : ℕ) : ℤ) t ((0 : ℕ) : ℤ) = none := by
    intro i t
    rw [MathRs.weightsC, show ((((3 : ℕ) : ℤ)) + 1).toNat = 4 from rfl,
      mapM_eq_none _ (List.range 4) 3 (by decide) (by rw [hgp i]; rfl)]
    rfl
  have hsp : ∀ (t : ℤ) (w : List ℚ), smooth_pointW 1 3 0 t w = none := by
    intro t w
    rw [smooth_pointW,
      mapM_eq_none _ (List.range (2 * 1 + 1)) 0 (by decide) (by rw [hwC]; rfl)]
    rfl
  rw [smoothW, if_neg (by norm_num), if_pos (by norm_num)]
  show smoothW 1 3 0 [(1 : ℚ), 2, 3, 4] = none
  rw [smoothW, if_neg (by norm_num), if_neg (by norm_num)]
  have hedge : smooth_edgeW 1 3 0 (-((1 : ℕ) : ℤ)) (-1)
      ([(1 : ℚ), 2, 3, 4].take (2 * 1 + 1)) = none := by
    rw [smooth_edgeW]
    exact mapM_eq_none _ _ 0 (by decide) (hsp _ _)
  rw [hedge]
  rfl

end Savgol
